import Mathlib

/-!
Verification of the messaging core of `zipline` (src/zipline/messaging.py).

The Python classes are shallowly embedded as Lean structures together with
pure step functions.  Socket I/O is modelled by explicit inputs (the message,
or poll outcome, handed to one `do_work`/`loop` iteration) and explicit
outputs (the list of messages the iteration sends); Python exceptions are
modelled by `Except`; Python `dict`s (which are insertion ordered and raise
`KeyError` on a missing key) are modelled by association lists.
-/

namespace Zipline

/-- `dictGet l k` models Python `l[k]`-with-check / `k in l`: the value at the
first entry whose key is `k`, if any. -/
def dictGet {α : Type} : List (String × α) → String → Option α
  | [], _ => none
  | p :: rest, k => if p.1 = k then some p.2 else dictGet rest k

/-- `dictSet l k v` models the Python dict assignment `l[k] = v`: overwrite the
entry with key `k` if present, otherwise append a new entry at the end
(Python dicts are insertion ordered). -/
def dictSet {α : Type} : List (String × α) → String → α → List (String × α)
  | [], k, v => [(k, v)]
  | p :: rest, k, v => if p.1 = k then (k, v) :: rest else p :: dictSet rest k v

/-- `pushVal l k v` models `l[k].append(v)` for a dict of lists, assuming the
key is present (the caller checks; Python raises `KeyError` otherwise). -/
def pushVal {α : Type} : List (String × List α) → String → α → List (String × List α)
  | [], _, _ => []
  | p :: rest, k, v => if p.1 = k then (p.1, p.2 ++ [v]) :: rest else p :: pushVal rest k v

/-- An event produced by a `DataSource` (spec data model: a `source_id`, a
timestamp `dt` with a total order, and an opaque payload). -/
structure Event where
  source_id : String
  dt : Int
  payload : String
deriving Repr, DecidableEq

/-- `dt`-ordering between events. -/
def dtLe (a b : Event) : Prop := a.dt ≤ b.dt

instance : DecidableRel dtLe := fun a b => inferInstanceAs (Decidable (a.dt ≤ b.dt))

instance : IsTrans Event dtLe := ⟨fun _ _ _ h h' => le_trans h h'⟩

/-- One message arriving on the Feed's PULL socket.  On the wire a message is
either the `str(CONTROL_PROTOCOL.DONE)` sentinel or a framed event that
`DATASOURCE_UNFRAME` decodes; the codec lives in `zipline.protocol` and is
opaque here, so we model the already-decoded alternatives.  The `src` carried
by `done` is ghost data used only to state the claims (the wire sentinel does
not identify its sender, and `do_work` ignores it). -/
inductive FeedMsg where
  | done (src : String)
  | data (e : Event)
deriving Repr, DecidableEq

/-- Errors a `ParallelBuffer.do_work` step can raise: `KeyError` from
`self.data_buffer[event.source_id]` when the source was never registered. -/
inductive FeedErr where
  | keyError
deriving Repr, DecidableEq

/-- State of `ParallelBuffer` (the Feed), fields as initialised in
`ParallelBuffer.__init__`.  `doneSignaled` records that `signal_done()` has
been called; the flag itself lives in the `Component` base class
(`zipline/component.py`, not part of this file's source), modelled from the
spec: `signal_done()` sends `<id>:DONE` and the component ceases producing
output. -/
structure FeedState where
  sent_count : Nat
  received_count : Nat
  draining : Bool
  data_buffer : List (String × List Event)
  ds_finished_counter : Nat
  doneSignaled : Bool
deriving Repr, DecidableEq

/-- `ParallelBuffer.__init__`. -/
def initFeedState : FeedState :=
  { sent_count := 0, received_count := 0, draining := false
    data_buffer := [], ds_finished_counter := 0, doneSignaled := false }

/-- `ParallelBuffer.add_source`. -/
def add_source (s : FeedState) (source_id : String) : FeedState :=
  { s with data_buffer := dictSet s.data_buffer source_id [] }

/-- The Feed state after registering the given data sources
(`ComponentHost.register_components` calls `feed.add_source` once per
`DataSource`). -/
def initFeed (sources : List String) : FeedState :=
  sources.foldl add_source initFeedState

/-- `ParallelBuffer.is_full`: every source queue holds at least one message. -/
def is_full (s : FeedState) : Bool :=
  s.data_buffer.all (fun p => !p.2.isEmpty)

/-- `ParallelBuffer.pending_messages`: total number of buffered events. -/
def pending_messages (s : FeedState) : Nat :=
  (s.data_buffer.map (fun p => p.2.length)).sum

/-- The selection loop inside `ParallelBuffer.next`: among the non-empty
queues, pick the one whose head has the smallest `dt` and pop that head.
The Python loop keeps the current candidate and replaces it whenever a later
queue's head satisfies `cur[0].dt <= earliest[0].dt`, so among equal minimal
heads the last queue (in dict order) wins; this recursion keeps the leftmost
queue only when its head is strictly smaller than the minimum to its right,
which selects the same queue.  `popStep` combines one queue with the choice
already made among the queues to its right. -/
def popStep (k : String) (q : List Event) (rest : List (String × List Event)) :
    Option (Event × List (String × List Event)) →
    Option (Event × List (String × List Event))
  | none =>
    match q with
    | [] => none
    | e :: tl => some (e, (k, tl) :: rest)
  | some (e', rest') =>
    match q with
    | [] => some (e', (k, q) :: rest')
    | e :: tl =>
      if e.dt < e'.dt then some (e, (k, tl) :: rest)
      else some (e', (k, q) :: rest')

/-- `ParallelBuffer.next`'s selection over the whole buffer (see `popStep`). -/
def popEarliest : List (String × List Event) → Option (Event × List (String × List Event))
  | [] => none
  | (k, q) :: rest => popStep k q rest (popEarliest rest)

/-- `ParallelBuffer.next`: under the `is_full() or draining` guard, pop and
return the chronologically next buffered event (`None` when the guard fails or
the buffer is empty). -/
def feedNext (s : FeedState) : Option Event × FeedState :=
  if !(is_full s || s.draining) then (none, s)
  else
    match popEarliest s.data_buffer with
    | none => (none, s)
    | some (e, buf') => (some e, { s with data_buffer := buf' })

/-- `ParallelBuffer.send_next`: guard, fetch `next()`, and if an event came
back publish it (returned here) and bump `sent_count`. -/
def send_next (s : FeedState) : FeedState × Option Event :=
  if !(is_full s || s.draining) then (s, none)
  else
    match feedNext s with
    | (none, s') => (s', none)
    | (some e, s') => ({ s' with sent_count := s'.sent_count + 1 }, some e)

/-- The `while(self.pending_messages() > 0): self.send_next()` loop of
`ParallelBuffer.drain`, with an explicit iteration budget.  `drain` runs it
with budget `pending_messages`, and the termination theorem shows that budget
is exactly enough. -/
def drainLoop : Nat → FeedState → FeedState × List Event
  | 0, s => (s, [])
  | n + 1, s =>
    if 0 < pending_messages s then
      let r := send_next s
      let r' := drainLoop n r.1
      (r'.1, r.2.toList ++ r'.2)
    else (s, [])

/-- `ParallelBuffer.drain`: set `draining` and send until the buffer is
empty. -/
def drain (s : FeedState) : FeedState × List Event :=
  let s' := { s with draining := true }
  drainLoop (pending_messages s') s'

/-- `ParallelBuffer.append`: enqueue the event under its `source_id`
(`KeyError` when the source is not a key of `data_buffer`) and bump
`received_count`. -/
def appendEvent (s : FeedState) (e : Event) : Except FeedErr FeedState :=
  match dictGet s.data_buffer e.source_id with
  | none => .error .keyError
  | some _ =>
    .ok { s with data_buffer := pushVal s.data_buffer e.source_id e
                 received_count := s.received_count + 1 }

/-- One `ParallelBuffer.do_work` iteration that received a message on the pull
socket, returning the new state and the events published on the feed socket.
A DONE sentinel bumps `ds_finished_counter` and, when the counter reaches the
number of sources, drains the buffer and calls `signal_done()`; a data message
is appended and `send_next()` is invoked. -/
def feedDoWork (s : FeedState) (m : FeedMsg) : Except FeedErr (FeedState × List Event) :=
  match m with
  | .done _ =>
    let s1 := { s with ds_finished_counter := s.ds_finished_counter + 1 }
    if s1.data_buffer.length = s1.ds_finished_counter then
      let r := drain s1
      .ok ({ r.1 with doneSignaled := true }, r.2)
    else .ok (s1, [])
  | .data e =>
    match appendEvent s e with
    | .error er => .error er
    | .ok s1 =>
      let r := send_next s1
      .ok (r.1, r.2.toList)

/-- Concatenate the events already published by a step with the remainder of
a run (helper for `runFeed`). -/
def seqOut (r : FeedState × List Event) :
    Except FeedErr (FeedState × List Event) → Except FeedErr (FeedState × List Event)
  | .error er => .error er
  | .ok r' => .ok (r'.1, r.2 ++ r'.2)

/-- A run of the Feed: `do_work` is applied to each arriving message in turn,
collecting the published events.  Modelled from the spec: the `Component` work
loop (class `Component`, in `zipline/component.py`, outside this file) repeats
`do_work` until the component has signalled DONE, at which point it ceases, so
messages after `signal_done()` are not processed. -/
def runFeed (s : FeedState) : List FeedMsg → Except FeedErr (FeedState × List Event)
  | [] => .ok (s, [])
  | m :: ms =>
    if s.doneSignaled then .ok (s, [])
    else
      match feedDoWork s m with
      | .error er => .error er
      | .ok r => seqOut r (runFeed r.1 ms)

/-- The events a list of incoming messages delivers for a given source, in
arrival order. -/
def futureOf (src : String) (ms : List FeedMsg) : List Event :=
  ms.filterMap fun m =>
    match m with
    | FeedMsg.data e => if e.source_id = src then some e else none
    | FeedMsg.done _ => none

/-- `low` is a lower bound for the event's timestamp (`none` meaning no bound:
nothing has been published yet). -/
def lowBound (low : Option Int) (e : Event) : Prop := ∀ d, low = some d → d ≤ e.dt

/-- The invariant threaded through a run of the Feed, relative to the messages
`ms` still to arrive: the Feed is still running (not draining, DONE not yet
signalled); buffered events sit in their own source's queue; for every source,
the buffered queue followed by the source's future events is non-decreasing in
`dt` (the per-source delivery-order hypothesis); and everything still buffered
or yet to arrive is at or above the `dt` of the last published event. -/
def FeedInv (low : Option Int) (s : FeedState) (ms : List FeedMsg) : Prop :=
  s.draining = false ∧ s.doneSignaled = false ∧
  (∀ p ∈ s.data_buffer, ∀ e ∈ p.2, e.source_id = p.1) ∧
  (∀ p ∈ s.data_buffer, List.Pairwise dtLe (p.2 ++ futureOf p.1 ms)) ∧
  (∀ p ∈ s.data_buffer, ∀ e ∈ p.2 ++ futureOf p.1 ms, lowBound low e)

/-- Number of DONE sentinels in a message list. -/
def countDones : List FeedMsg → Nat
  | [] => 0
  | FeedMsg.done _ :: ms => countDones ms + 1
  | FeedMsg.data _ :: ms => countDones ms

/-- The data events of a message list, in order. -/
def dataEvents : List FeedMsg → List Event
  | [] => []
  | FeedMsg.done _ :: ms => dataEvents ms
  | FeedMsg.data e :: ms => e :: dataEvents ms

/-- Errors raised inside `PassthroughTransform.do_work`. -/
inductive PyErr where
  | unboundLocalError
deriving Repr, DecidableEq

/-- One iteration of `PassthroughTransform.do_work` (src lines 399-413).  The
input is the poll outcome: `none` when the poll timed out with no message,
`some m` when an (already `FEED_FRAME`d) message `m` was received; `doneTok`
is `str(CONTROL_PROTOCOL.DONE)` (the enum's wire form lives in
`zipline.protocol`, outside this file).  The result is the list of
`TRANSFORM_FRAME(name, value)` pairs pushed to the result socket, with a flag
recording whether `signal_done()` was called.  Note that in the source the
final `send` statement sits one indentation level OUTSIDE the
`if self.feed_socket in socks ...` block, so when the poll yields no message
the function still executes `self.result_socket.send(zp.TRANSFORM_FRAME(
"PASSTHROUGH", message), ...)` with the local `message` never assigned,
which raises `UnboundLocalError`. -/
def passthrough_do_work (doneTok : String) :
    Option String → Except PyErr (List (String × String) × Bool)
  | some m =>
    if m = doneTok then Except.ok ([], true)
    else Except.ok ([("PASSTHROUGH", m)], false)
  | none => Except.error PyErr.unboundLocalError

/-- A transform result as received by the Merge: `TRANSFORM_UNFRAME` yields a
namedict with a single key — the transform's name — holding the transformed
value.  Modelled from the spec: the codec (`zipline.protocol`) is external,
so the value is opaque here. -/
structure TransformResult where
  name : String
  value : String
deriving Repr, DecidableEq

/-- Modelled from the spec: a MergedRecord is the mutable accumulator whose
base is the passthrough payload and into which `merge(other)` folds another
transform's `{name, value}` as a named field (the record type lives in
`zipline.protocol`, outside this file). -/
structure MergedRecord where
  base : String
  fields : List (String × String)
deriving Repr, DecidableEq

/-- Modelled from the spec: `result.merge(cur)` folds one transform result
into the accumulator. -/
def mergeRecord (r : MergedRecord) (c : TransformResult) : MergedRecord :=
  { r with fields := r.fields ++ [(c.name, c.value)] }

/-- The fields of `MergedParallelBuffer` that its `next` reads (the rest of
the inherited `ParallelBuffer` state plays no role in `next`). -/
structure MergeState where
  data_buffer : List (String × List TransformResult)
  draining : Bool
deriving Repr, DecidableEq

/-- Errors `MergedParallelBuffer.next` can raise: `pop(0)` on an empty list
(`IndexError`), a missing `"PASSTHROUGH"` key (`KeyError`), and a namedict in
the passthrough queue whose single key is not `PASSTHROUGH` (an
`AttributeError` from the `.PASSTHROUGH` access). -/
inductive MergeErr where
  | indexError
  | keyError
  | attributeError
deriving Repr, DecidableEq

/-- `is_full` inherited from `ParallelBuffer`, on the Merge's buffer. -/
def mergeIsFull (s : MergeState) : Bool :=
  s.data_buffer.all (fun p => !p.2.isEmpty)

/-- The `for source, events in self.data_buffer.iteritems()` loop of
`MergedParallelBuffer.next`: pop the head of every non-`PASSTHROUGH` queue
that has an element and fold it into the record. -/
def popOthers : List (String × List TransformResult) → MergedRecord →
    MergedRecord × List (String × List TransformResult)
  | [], r => (r, [])
  | (k, q) :: rest, r =>
    if k = "PASSTHROUGH" then
      let r' := popOthers rest r
      (r'.1, (k, q) :: r'.2)
    else
      match q with
      | [] =>
        let r' := popOthers rest r
        (r'.1, (k, q) :: r'.2)
      | c :: tl =>
        let r' := popOthers rest (mergeRecord r c)
        (r'.1, (k, tl) :: r'.2)

/-- `MergedParallelBuffer.next`: under the `is_full() or draining` guard, pop
the head of the `PASSTHROUGH` queue (`pop(0)`, raising `IndexError` when that
queue is empty) to obtain the base record, then fold in the head of every
other non-empty queue. -/
def mergedNext (s : MergeState) : Except MergeErr (Option (MergedRecord × MergeState)) :=
  if !(mergeIsFull s || s.draining) then Except.ok none
  else
    match dictGet s.data_buffer "PASSTHROUGH" with
    | none => Except.error MergeErr.keyError
    | some [] => Except.error MergeErr.indexError
    | some (p :: tl) =>
      if p.name = "PASSTHROUGH" then
        let r := popOthers (dictSet s.data_buffer "PASSTHROUGH" tl)
          { base := p.value, fields := [] }
        Except.ok (some (r.1, { s with data_buffer := r.2 }))
      else Except.error MergeErr.attributeError

/-- Outcome of one poll of the host's sync socket. -/
inductive Poll where
  | empty
  | msg (m : String)
deriving Repr, DecidableEq

/-- Errors `ComponentHost.loop` can raise: a `KeyError` from
`unregister_component` when the id to delete is not a key. -/
inductive HostErr where
  | keyError
deriving Repr, DecidableEq

/-- The host registry state: the key set of `components` (the mapped
component objects play no role in the sync control flow), `sync_register`
mapping ids to `last_seen` times, and the liveness threshold `timeout`
(`datetime.timedelta(seconds=5)` at construction).  Times are integers in a
consistent unit. -/
structure HostState where
  components : List String
  sync_register : List (String × Int)
  timeout : Int
deriving Repr, DecidableEq

/-- `del self.components[component_id]` — `KeyError` when absent. -/
def delKey (l : List String) (k : String) : Except HostErr (List String) :=
  if k ∈ l then Except.ok (l.erase k) else Except.error HostErr.keyError

/-- `del self.sync_register[component_id]` — `KeyError` when absent. -/
def delEntry (l : List (String × Int)) (k : String) :
    Except HostErr (List (String × Int)) :=
  if (dictGet l k).isSome then Except.ok (l.eraseP (fun p => p.1 == k))
  else Except.error HostErr.keyError

/-- `ComponentHost.unregister_component`. -/
def unregister_component (h : HostState) (cid : String) : Except HostErr HostState :=
  match delKey h.components cid with
  | .error er => .error er
  | .ok comps =>
    match delEntry h.sync_register cid with
    | .error er => .error er
    | .ok sync => .ok { h with components := comps, sync_register := sync }

/-- `ComponentHost.is_timed_out` at wall-clock time `cur_time`. -/
def is_timed_out (cur_time : Int) (h : HostState) : Bool :=
  if h.components.length = 0 then true
  else h.sync_register.any (fun p => h.timeout < cur_time - p.2)

/-- Helper for `pySplitColon`: prepend a character to the current group. -/
def splitGroup (a : Char) : List (List Char) → List (List Char)
  | [] => [[a]]
  | g :: gs => (a :: g) :: gs

/-- Recursion behind `pySplitColon`, over the string's characters. -/
def splitOnColonAux : List Char → List (List Char)
  | [] => [[]]
  | a :: rest =>
    if a = ':' then [] :: splitOnColonAux rest
    else splitGroup a (splitOnColonAux rest)

/-- Python's `msg.split(':')` (the separator in the source is the single
character `:`).  `String.splitOn` has the same behaviour but its
byte-position implementation does not reduce during proofs, so the split is
written as a structural recursion over the character list. -/
def pySplitColon (m : String) : List String :=
  (splitOnColonAux m.toList).map (fun l => String.mk l)

/-- Handling of the split frame inside the loop body: on a well-formed
`<id>:<status>` frame, DONE unregisters the id (the `ack` is sent only if
that does not raise) and any other status refreshes `last_seen`; a frame
that does not split on `:` into exactly two parts is logged and skipped with
`continue` — before the `ack` send is reached. -/
def handleFrame (doneTok : String) (now : Int) (h : HostState) :
    List String → Except HostErr (HostState × List String)
  | [sync_id, status] =>
    if status = doneTok then
      match unregister_component h sync_id with
      | .error er => .error er
      | .ok h' => .ok (h', ["ack"])
    else
      Except.ok ({ h with sync_register := dictSet h.sync_register sync_id now }, ["ack"])
  | _ => Except.ok (h, [])

/-- The body of one `ComponentHost.loop` iteration after the poll, at
wall-clock time `now`; `doneTok` is `str(CONTROL_PROTOCOL.DONE)` (the enum's
wire form lives in `zipline.protocol`, outside this file).  Returns the new
state and the replies sent on the sync socket. -/
def loopBody (doneTok : String) (now : Int) (h : HostState) :
    Poll → Except HostErr (HostState × List String)
  | Poll.empty => Except.ok (h, [])
  | Poll.msg m => handleFrame doneTok now h (pySplitColon m)

/-- Concatenate the acks already sent with the rest of the loop (helper for
`loopRun`). -/
def seqAcks (r : HostState × List String) :
    Except HostErr (HostState × List String) → Except HostErr (HostState × List String)
  | .error er => .error er
  | .ok r' => .ok (r'.1, r.2 ++ r'.2)

/-- `ComponentHost.loop`: iterate while `is_timed_out()` is false.  Each
schedule entry carries the wall-clock time of the iteration (used both for
the timeout check at the top and the `last_seen` refresh) and the poll
outcome. -/
def loopRun (doneTok : String) : List (Int × Poll) → HostState →
    Except HostErr (HostState × List String)
  | [], h => Except.ok (h, [])
  | (t, p) :: rest, h =>
    if is_timed_out t h then Except.ok (h, [])
    else
      match loopBody doneTok t h p with
      | .error er => .error er
      | .ok r => seqAcks r (loopRun doneTok rest r.1)

/-! ### Theorems -/

/-! ### Structural lemmas about `popEarliest` -/

theorem popEarliest_none_iff : ∀ buf : List (String × List Event),
    popEarliest buf = none ↔ ∀ p ∈ buf, p.2 = [] := by
  intro buf
  induction buf with
  | nil => simp [popEarliest]
  | cons p rest ih =>
    obtain ⟨k, q⟩ := p
    rw [popEarliest]
    rcases hr : popEarliest rest with _ | ⟨e', rest'⟩
    · have hall : ∀ p ∈ rest, p.2 = [] := ih.mp hr
      cases q with
      | nil =>
        have hs : popStep k [] rest none = none := rfl
        rw [hs]
        constructor
        · intro _ p hp
          rcases List.mem_cons.mp hp with h' | h'
          · rw [h']
          · exact hall p h'
        · intro _; rfl
      | cons e tl =>
        have hs : popStep k (e :: tl) rest none = some (e, (k, tl) :: rest) := rfl
        rw [hs]
        constructor
        · intro h; cases h
        · intro h
          cases h (k, e :: tl) (List.mem_cons_self _ _)
    · have hrest : ¬ ∀ p ∈ rest, p.2 = [] := fun h => by simp [ih.mpr h] at hr
      constructor
      · intro h
        exfalso
        cases q with
        | nil =>
          have hs : popStep k [] rest (some (e', rest')) = some (e', (k, []) :: rest') := rfl
          rw [hs] at h; cases h
        | cons e tl =>
          have hs : popStep k (e :: tl) rest (some (e', rest'))
              = if e.dt < e'.dt then some (e, (k, tl) :: rest)
                else some (e', (k, e :: tl) :: rest') := rfl
          rw [hs] at h
          split at h <;> cases h
      · intro h
        exact absurd (fun p hp => h p (List.mem_cons_of_mem _ hp)) hrest

theorem popEarliest_split : ∀ (buf : List (String × List Event)) (e : Event) buf',
    popEarliest buf = some (e, buf') →
    ∃ pre k tl post, buf = pre ++ (k, e :: tl) :: post ∧ buf' = pre ++ (k, tl) :: post := by
  intro buf
  induction buf with
  | nil => intro e buf' h; simp [popEarliest] at h
  | cons p rest ih =>
    obtain ⟨k, q⟩ := p
    intro e buf' h
    rw [popEarliest] at h
    rcases hr : popEarliest rest with _ | ⟨e', rest'⟩
    · rw [hr] at h
      cases q with
      | nil =>
        have hs : popStep k [] rest none = none := rfl
        rw [hs] at h; cases h
      | cons e0 tl =>
        have hs : popStep k (e0 :: tl) rest none = some (e0, (k, tl) :: rest) := rfl
        rw [hs] at h
        simp only [Option.some.injEq, Prod.mk.injEq] at h
        obtain ⟨he, hb⟩ := h
        exact ⟨[], k, tl, rest, by simp [he], by simp [← hb]⟩
    · rw [hr] at h
      obtain ⟨pre, k', tl', post, hrest, hrest'⟩ := ih e' rest' hr
      cases q with
      | nil =>
        have hs : popStep k [] rest (some (e', rest')) = some (e', (k, []) :: rest') := rfl
        rw [hs] at h
        simp only [Option.some.injEq, Prod.mk.injEq] at h
        obtain ⟨he, hb⟩ := h
        exact ⟨(k, []) :: pre, k', tl', post, by simp [hrest, he], by simp [← hb, hrest']⟩
      | cons e0 tl =>
        have hs : popStep k (e0 :: tl) rest (some (e', rest'))
            = if e0.dt < e'.dt then some (e0, (k, tl) :: rest)
              else some (e', (k, e0 :: tl) :: rest') := rfl
        rw [hs] at h
        by_cases hlt : e0.dt < e'.dt
        · rw [if_pos hlt] at h
          simp only [Option.some.injEq, Prod.mk.injEq] at h
          obtain ⟨he, hb⟩ := h
          exact ⟨[], k, tl, rest, by simp [he], by simp [← hb]⟩
        · rw [if_neg hlt] at h
          simp only [Option.some.injEq, Prod.mk.injEq] at h
          obtain ⟨he, hb⟩ := h
          exact ⟨(k, e0 :: tl) :: pre, k', tl', post, by simp [hrest, he],
            by simp [← hb, hrest']⟩

theorem popEarliest_min : ∀ (buf : List (String × List Event)) (e : Event) buf',
    popEarliest buf = some (e, buf') →
    (∀ p ∈ buf, List.Pairwise dtLe p.2) →
    ∀ p ∈ buf, ∀ f ∈ p.2, e.dt ≤ f.dt := by
  intro buf
  induction buf with
  | nil => intro e buf' h; simp [popEarliest] at h
  | cons p rest ih =>
    obtain ⟨k, q⟩ := p
    intro e buf' h hsort
    have hsort_rest : ∀ p ∈ rest, List.Pairwise dtLe p.2 :=
      fun p hp => hsort p (List.mem_cons_of_mem _ hp)
    rw [popEarliest] at h
    rcases hr : popEarliest rest with _ | ⟨e', rest'⟩
    · rw [hr] at h
      have hempty : ∀ p ∈ rest, p.2 = [] := (popEarliest_none_iff rest).mp hr
      cases q with
      | nil =>
        have hs : popStep k [] rest none = none := rfl
        rw [hs] at h; cases h
      | cons e0 tl =>
        have hs : popStep k (e0 :: tl) rest none = some (e0, (k, tl) :: rest) := rfl
        rw [hs] at h
        simp only [Option.some.injEq, Prod.mk.injEq] at h
        obtain ⟨he, _⟩ := h
        have hq_sorted := hsort (k, e0 :: tl) (List.mem_cons_self _ _)
        intro p hp f hf
        rcases List.mem_cons.mp hp with h' | h'
        · rw [← he]
          rw [h'] at hf
          rcases List.mem_cons.mp hf with h'' | h''
          · rw [h'']
          · exact (List.pairwise_cons.mp hq_sorted).1 f h''
        · rw [hempty p h'] at hf; cases hf
    · rw [hr] at h
      have hmin' : ∀ p ∈ rest, ∀ f ∈ p.2, e'.dt ≤ f.dt := ih e' rest' hr hsort_rest
      cases q with
      | nil =>
        have hs : popStep k [] rest (some (e', rest')) = some (e', (k, []) :: rest') := rfl
        rw [hs] at h
        simp only [Option.some.injEq, Prod.mk.injEq] at h
        obtain ⟨he, _⟩ := h
        intro p hp f hf
        rcases List.mem_cons.mp hp with h' | h'
        · rw [h'] at hf; cases hf
        · exact he ▸ hmin' p h' f hf
      | cons e0 tl =>
        have hs : popStep k (e0 :: tl) rest (some (e', rest'))
            = if e0.dt < e'.dt then some (e0, (k, tl) :: rest)
              else some (e', (k, e0 :: tl) :: rest') := rfl
        rw [hs] at h
        have hq_sorted := hsort (k, e0 :: tl) (List.mem_cons_self _ _)
        have hq_bound : ∀ f ∈ e0 :: tl, e0.dt ≤ f.dt := by
          intro f hf
          rcases List.mem_cons.mp hf with h'' | h''
          · rw [h'']
          · exact (List.pairwise_cons.mp hq_sorted).1 f h''
        by_cases hlt : e0.dt < e'.dt
        · rw [if_pos hlt] at h
          simp only [Option.some.injEq, Prod.mk.injEq] at h
          obtain ⟨he, _⟩ := h
          intro p hp f hf
          rcases List.mem_cons.mp hp with h' | h'
          · rw [← he]; rw [h'] at hf; exact hq_bound f hf
          · exact he ▸ le_trans (le_of_lt hlt) (hmin' p h' f hf)
        · rw [if_neg hlt] at h
          simp only [Option.some.injEq, Prod.mk.injEq] at h
          obtain ⟨he, _⟩ := h
          intro p hp f hf
          rcases List.mem_cons.mp hp with h' | h'
          · rw [h'] at hf
            exact he ▸ le_trans (le_of_not_lt hlt) (hq_bound f hf)
          · exact he ▸ hmin' p h' f hf

/-! ### Bookkeeping lemmas about `send_next`, `drainLoop` and `drain` -/

theorem popEarliest_pending {buf buf' : List (String × List Event)} {e : Event}
    (h : popEarliest buf = some (e, buf')) :
    ((buf'.map (fun p => p.2.length)).sum) + 1 = (buf.map (fun p => p.2.length)).sum := by
  obtain ⟨pre, k, tl, post, hb, hb'⟩ := popEarliest_split buf e buf' h
  subst hb; subst hb'
  simp [List.map_append, List.sum_append]
  omega

theorem popEarliest_keys {buf buf' : List (String × List Event)} {e : Event}
    (h : popEarliest buf = some (e, buf')) :
    buf'.map Prod.fst = buf.map Prod.fst := by
  obtain ⟨pre, k, tl, post, hb, hb'⟩ := popEarliest_split buf e buf' h
  subst hb; subst hb'
  simp [List.map_append]

theorem popEarliest_isSome_of_pending (buf : List (String × List Event))
    (h : 0 < (buf.map (fun p => p.2.length)).sum) :
    ∃ e buf', popEarliest buf = some (e, buf') := by
  rcases hp : popEarliest buf with _ | ⟨e, buf'⟩
  · exfalso
    have hall := (popEarliest_none_iff buf).mp hp
    have : (buf.map (fun p => p.2.length)).sum = 0 := by
      have : buf.map (fun p => p.2.length) = buf.map (fun _ => 0) := by
        apply List.map_congr_left
        intro p hp'
        rw [hall p hp']
        rfl
      rw [this]
      simp
    omega
  · exact ⟨e, buf', rfl⟩

theorem send_next_guard_some {s : FeedState} {e : Event}
    {buf' : List (String × List Event)}
    (hg : (is_full s || s.draining) = true)
    (hp : popEarliest s.data_buffer = some (e, buf')) :
    send_next s = ({ s with data_buffer := buf', sent_count := s.sent_count + 1 }, some e) := by
  rw [send_next, feedNext, hg]
  simp only [Bool.not_true, Bool.false_eq_true, if_false, hp]

theorem send_next_guard_none {s : FeedState}
    (hp : popEarliest s.data_buffer = none) :
    send_next s = (s, none) := by
  rw [send_next, feedNext]
  by_cases hg : (is_full s || s.draining) = true
  · rw [hg]
    simp only [Bool.not_true, Bool.false_eq_true, if_false, hp]
  · rw [Bool.not_eq_true] at hg
    rw [hg]
    simp

theorem send_next_no_guard {s : FeedState}
    (hg : (is_full s || s.draining) = false) :
    send_next s = (s, none) := by
  rw [send_next, hg]
  simp

/-- Everything one `send_next` step does to the state, in one bundle. -/
theorem send_next_fields (s : FeedState) :
    (send_next s).1.received_count = s.received_count ∧
    (send_next s).1.ds_finished_counter = s.ds_finished_counter ∧
    (send_next s).1.draining = s.draining ∧
    (send_next s).1.doneSignaled = s.doneSignaled ∧
    (send_next s).1.data_buffer.map Prod.fst = s.data_buffer.map Prod.fst ∧
    (send_next s).1.sent_count = s.sent_count + (send_next s).2.toList.length ∧
    pending_messages s = pending_messages (send_next s).1 + (send_next s).2.toList.length := by
  by_cases hg : (is_full s || s.draining) = true
  · rcases hp : popEarliest s.data_buffer with _ | ⟨e, buf'⟩
    · rw [send_next_guard_none hp]
      simp
    · rw [send_next_guard_some hg hp]
      refine ⟨rfl, rfl, rfl, rfl, popEarliest_keys hp, by simp, ?_⟩
      have h1 := popEarliest_pending hp
      have h2 : pending_messages ({ s with data_buffer := buf', sent_count := s.sent_count + 1 } : FeedState) = (buf'.map (fun p => p.2.length)).sum := rfl
      have h3 : pending_messages s = (s.data_buffer.map (fun p => p.2.length)).sum := rfl
      simp only [Option.toList_some, List.length_cons, List.length_nil]
      omega
  · rw [send_next_no_guard (by rw [Bool.not_eq_true] at hg; exact hg)]
    simp

/-- `drainLoop` preserves the counters untouched by `send_next`, and counts
its emissions in `sent_count`. -/
theorem drainLoop_fields : ∀ (n : Nat) (s : FeedState),
    (drainLoop n s).1.received_count = s.received_count ∧
    (drainLoop n s).1.ds_finished_counter = s.ds_finished_counter ∧
    (drainLoop n s).1.draining = s.draining ∧
    (drainLoop n s).1.doneSignaled = s.doneSignaled ∧
    (drainLoop n s).1.data_buffer.map Prod.fst = s.data_buffer.map Prod.fst ∧
    (drainLoop n s).1.sent_count = s.sent_count + (drainLoop n s).2.length ∧
    pending_messages s = pending_messages (drainLoop n s).1 + (drainLoop n s).2.length := by
  intro n
  induction n with
  | zero => intro s; simp [drainLoop]
  | succ n ih =>
    intro s
    rw [drainLoop]
    by_cases hpend : 0 < pending_messages s
    · rw [if_pos hpend]
      obtain ⟨h1, h2, h3, h4, h5, h6, h7⟩ := send_next_fields s
      obtain ⟨g1, g2, g3, g4, g5, g6, g7⟩ := ih (send_next s).1
      simp only [List.length_append]
      refine ⟨g1.trans h1, g2.trans h2, g3.trans h3, g4.trans h4, g5.trans h5, ?_, ?_⟩
      · rw [g6, h6]; omega
      · rw [h7, g7]; omega
    · rw [if_neg hpend]
      simp

/-- With the `draining` flag set and a budget of at least `pending_messages`,
the drain loop empties the buffer, emitting exactly one event per iteration. -/
theorem drainLoop_drains : ∀ (n : Nat) (s : FeedState),
    s.draining = true → pending_messages s ≤ n →
    pending_messages (drainLoop n s).1 = 0 ∧
    (drainLoop n s).2.length = pending_messages s := by
  intro n
  induction n with
  | zero =>
    intro s _ hle
    simp [drainLoop]
    omega
  | succ n ih =>
    intro s hdr hle
    rw [drainLoop]
    by_cases hpend : 0 < pending_messages s
    · rw [if_pos hpend]
      obtain ⟨e, buf', hp⟩ := popEarliest_isSome_of_pending s.data_buffer hpend
      have hstep := send_next_guard_some (by simp [hdr]) hp
      rw [hstep]
      have hpend2 : pending_messages ({ s with data_buffer := buf', sent_count := s.sent_count + 1 } : FeedState) + 1 = pending_messages s :=
        popEarliest_pending hp
      have hdr2 : ({ s with data_buffer := buf', sent_count := s.sent_count + 1 } : FeedState).draining = true := hdr
      obtain ⟨r1, r2⟩ :=
        ih { s with data_buffer := buf', sent_count := s.sent_count + 1 } hdr2 (by omega)
      refine ⟨r1, ?_⟩
      simp only [Option.toList_some, List.length_append, List.length_cons, List.length_nil]
      omega
    · rw [if_neg hpend]
      simp
      omega

/-- `ParallelBuffer.drain` terminates with an empty buffer after sending
exactly the buffered events. -/
theorem drain_spec (s : FeedState) :
    (drain s).1.draining = true ∧
    pending_messages (drain s).1 = 0 ∧
    (drain s).2.length = pending_messages s ∧
    (drain s).1.sent_count = s.sent_count + pending_messages s ∧
    (drain s).1.received_count = s.received_count ∧
    (drain s).1.ds_finished_counter = s.ds_finished_counter ∧
    (drain s).1.doneSignaled = s.doneSignaled ∧
    (drain s).1.data_buffer.map Prod.fst = s.data_buffer.map Prod.fst := by
  have hpe : pending_messages { s with draining := true } = pending_messages s := rfl
  obtain ⟨f1, f2, f3, f4, f5, f6, f7⟩ :=
    drainLoop_fields (pending_messages { s with draining := true }) { s with draining := true }
  obtain ⟨d1, d2⟩ :=
    drainLoop_drains (pending_messages { s with draining := true }) { s with draining := true }
      rfl (le_refl _)
  rw [drain]
  simp only at f1 f2 f3 f4 f5 f6 f7 d1 d2 ⊢
  refine ⟨f3, d1, by rw [d2, hpe], ?_, f1, f2, f4, f5⟩
  rw [f6, d2, hpe]

/-! ### Chronological order of the published feed stream -/

theorem futureOf_done (src s' : String) (ms : List FeedMsg) :
    futureOf src (FeedMsg.done s' :: ms) = futureOf src ms := by
  simp [futureOf, List.filterMap_cons]

theorem futureOf_data (src : String) (e : Event) (ms : List FeedMsg) :
    futureOf src (FeedMsg.data e :: ms)
      = if e.source_id = src then e :: futureOf src ms else futureOf src ms := by
  by_cases h : e.source_id = src
  · simp [futureOf, List.filterMap_cons, h]
  · simp [futureOf, List.filterMap_cons, h]

theorem futureOf_data_sublist (src : String) (e : Event) (ms : List FeedMsg) :
    List.Sublist (futureOf src ms) (futureOf src (FeedMsg.data e :: ms)) := by
  rw [futureOf_data]
  split
  · exact List.sublist_cons_self _ _
  · exact List.Sublist.refl _

/-- Draining a buffer of sorted queues publishes a non-decreasing stream, all
of it at or above any bound the buffered events respect. -/
theorem drainLoop_ord : ∀ (n : Nat) (s : FeedState) (low : Option Int),
    s.draining = true →
    (∀ p ∈ s.data_buffer, List.Pairwise dtLe p.2) →
    (∀ p ∈ s.data_buffer, ∀ e ∈ p.2, lowBound low e) →
    List.Pairwise dtLe (drainLoop n s).2 ∧ ∀ e ∈ (drainLoop n s).2, lowBound low e := by
  intro n
  induction n with
  | zero => intro s low _ _ _; simp [drainLoop]
  | succ n ih =>
    intro s low hdr hsq hbd
    rw [drainLoop]
    by_cases hpend : 0 < pending_messages s
    · rw [if_pos hpend]
      obtain ⟨e0, buf', hp⟩ := popEarliest_isSome_of_pending s.data_buffer hpend
      have hstep := send_next_guard_some (by simp [hdr]) hp
      rw [hstep]
      obtain ⟨pre, k, tl, post, hb, hb'⟩ := popEarliest_split _ _ _ hp
      have hmin := popEarliest_min _ _ _ hp hsq
      have hmem0 : (k, e0 :: tl) ∈ s.data_buffer := by
        rw [hb]; exact List.mem_append.mpr (Or.inr (List.mem_cons_self _ _))
      have hsq1 : ∀ p ∈ ({ s with data_buffer := buf', sent_count := s.sent_count + 1 } : FeedState).data_buffer, List.Pairwise dtLe p.2 := by
        intro p hp'
        have hp'' : p ∈ pre ++ (k, tl) :: post := by rw [← hb']; exact hp'
        rcases List.mem_append.mp hp'' with h' | h'
        · exact hsq p (by rw [hb]; exact List.mem_append.mpr (Or.inl h'))
        · rcases List.mem_cons.mp h' with h'' | h''
          · rw [h'']
            exact (List.pairwise_cons.mp (hsq _ hmem0)).2
          · exact hsq p (by rw [hb]; exact List.mem_append.mpr (Or.inr (List.mem_cons_of_mem _ h'')))
      have hbd1 : ∀ p ∈ ({ s with data_buffer := buf', sent_count := s.sent_count + 1 } : FeedState).data_buffer, ∀ x ∈ p.2, lowBound (some e0.dt) x := by
        intro p hp' x hx d hd
        injection hd with hd
        subst hd
        have hp'' : p ∈ pre ++ (k, tl) :: post := by rw [← hb']; exact hp'
        rcases List.mem_append.mp hp'' with h' | h'
        · exact hmin p (by rw [hb]; exact List.mem_append.mpr (Or.inl h')) x hx
        · rcases List.mem_cons.mp h' with h'' | h''
          · refine hmin (k, e0 :: tl) hmem0 x ?_
            rw [h''] at hx
            exact List.mem_cons_of_mem _ hx
          · exact hmin p (by rw [hb]; exact List.mem_append.mpr (Or.inr (List.mem_cons_of_mem _ h''))) x hx
      obtain ⟨r1, r2⟩ := ih { s with data_buffer := buf', sent_count := s.sent_count + 1 } (some e0.dt) hdr hsq1 hbd1
      have he0low : lowBound low e0 := hbd (k, e0 :: tl) hmem0 e0 (List.mem_cons_self _ _)
      constructor
      · simp only [Option.toList_some, List.singleton_append]
        rw [List.pairwise_cons]
        exact ⟨fun x hx => (r2 x hx) e0.dt rfl, r1⟩
      · intro x hx
        simp only [Option.toList_some, List.singleton_append, List.mem_cons] at hx
        rcases hx with h' | h'
        · rw [h']; exact he0low
        · intro d hd
          exact le_trans (he0low d hd) ((r2 x h') e0.dt rfl)
    · rw [if_neg hpend]
      simp

/-- `ParallelBuffer.drain` publishes a non-decreasing stream bounded below by
any bound on the buffered events. -/
theorem drain_ord (s : FeedState) (low : Option Int)
    (hsq : ∀ p ∈ s.data_buffer, List.Pairwise dtLe p.2)
    (hbd : ∀ p ∈ s.data_buffer, ∀ e ∈ p.2, lowBound low e) :
    List.Pairwise dtLe (drain s).2 ∧ ∀ e ∈ (drain s).2, lowBound low e := by
  rw [drain]
  exact drainLoop_ord _ { s with draining := true } low rfl hsq hbd

/-! ### Characterisations of single steps -/

theorem pushVal_split {α : Type} : ∀ (l : List (String × List α)) (k : String) (q : List α) (v : α),
    dictGet l k = some q →
    ∃ pre post, (∀ p ∈ pre, p.1 ≠ k) ∧ l = pre ++ (k, q) :: post ∧
      pushVal l k v = pre ++ (k, q ++ [v]) :: post := by
  intro l
  induction l with
  | nil => intro k q v h; simp [dictGet] at h
  | cons p rest ih =>
    obtain ⟨a, b⟩ := p
    intro k q v h
    by_cases hk : a = k
    · rw [dictGet, if_pos hk] at h
      injection h with h
      subst hk; subst h
      refine ⟨[], rest, by simp, by simp, ?_⟩
      rw [pushVal]
      simp
    · rw [dictGet, if_neg hk] at h
      obtain ⟨pre, post, hpre, hl, hpush⟩ := ih k q v h
      refine ⟨(a, b) :: pre, post, ?_, by rw [List.cons_append, ← hl], ?_⟩
      · intro p' hp'
        rcases List.mem_cons.mp hp' with h' | h'
        · rw [h']; exact hk
        · exact hpre p' h'
      · rw [pushVal, if_neg hk, hpush, List.cons_append]

theorem is_full_nonempty {s : FeedState} (h : is_full s = true) :
    ∀ p ∈ s.data_buffer, p.2 ≠ [] := by
  intro p hp
  have := List.all_eq_true.mp h p hp
  simp at this
  exact this

theorem appendEvent_ok {s : FeedState} {e : Event} {q : List Event}
    (hq : dictGet s.data_buffer e.source_id = some q) :
    appendEvent s e = Except.ok { s with data_buffer := pushVal s.data_buffer e.source_id e, received_count := s.received_count + 1 } := by
  rw [appendEvent, hq]

theorem appendEvent_err {s : FeedState} {e : Event}
    (hq : dictGet s.data_buffer e.source_id = none) :
    appendEvent s e = Except.error FeedErr.keyError := by
  rw [appendEvent, hq]

theorem feedDoWork_done_pos {s : FeedState} (src : String)
    (hlen : s.data_buffer.length = s.ds_finished_counter + 1) :
    feedDoWork s (FeedMsg.done src)
      = Except.ok
          ({ (drain { s with ds_finished_counter := s.ds_finished_counter + 1 }).1 with doneSignaled := true },
            (drain { s with ds_finished_counter := s.ds_finished_counter + 1 }).2) := by
  rw [feedDoWork]
  exact if_pos hlen

theorem feedDoWork_done_neg {s : FeedState} (src : String)
    (hlen : ¬ s.data_buffer.length = s.ds_finished_counter + 1) :
    feedDoWork s (FeedMsg.done src)
      = Except.ok ({ s with ds_finished_counter := s.ds_finished_counter + 1 }, []) := by
  rw [feedDoWork]
  exact if_neg hlen

theorem feedDoWork_data {s s1 : FeedState} {e : Event}
    (ha : appendEvent s e = Except.ok s1) :
    feedDoWork s (FeedMsg.data e)
      = Except.ok ((send_next s1).1, (send_next s1).2.toList) := by
  rw [feedDoWork, ha]

theorem feedDoWork_data_err {s : FeedState} {e : Event}
    (ha : appendEvent s e = Except.error FeedErr.keyError) :
    feedDoWork s (FeedMsg.data e) = Except.error FeedErr.keyError := by
  rw [feedDoWork, ha]

theorem runFeed_stopped {s : FeedState} (ms : List FeedMsg)
    (hds : s.doneSignaled = true) :
    runFeed s ms = Except.ok (s, []) := by
  cases ms with
  | nil => rw [runFeed]
  | cons m ms => rw [runFeed, if_pos hds]

theorem runFeed_cons_ok {s : FeedState} {m : FeedMsg} {ms : List FeedMsg}
    {r : FeedState × List Event}
    (hds : s.doneSignaled = false) (hw : feedDoWork s m = Except.ok r) :
    runFeed s (m :: ms) = seqOut r (runFeed r.1 ms) := by
  rw [runFeed, if_neg (by simp [hds]), hw]

theorem runFeed_cons_err {s : FeedState} {m : FeedMsg} {ms : List FeedMsg}
    {er : FeedErr}
    (hds : s.doneSignaled = false) (hw : feedDoWork s m = Except.error er) :
    runFeed s (m :: ms) = Except.error er := by
  rw [runFeed, if_neg (by simp [hds]), hw]

theorem seqOut_ok (r : FeedState × List Event) (r' : FeedState × List Event) :
    seqOut r (Except.ok r') = Except.ok (r'.1, r.2 ++ r'.2) := rfl

theorem seqOut_err (r : FeedState × List Event) (er : FeedErr) :
    seqOut r (Except.error er) = Except.error er := rfl

/-! ### Transport of the run invariant across single steps -/

theorem send_next_fst_of_some {s : FeedState} {e : Event}
    {buf' : List (String × List Event)}
    (hg : (is_full s || s.draining) = true)
    (hp : popEarliest s.data_buffer = some (e, buf')) :
    (send_next s).1 = { s with data_buffer := buf', sent_count := s.sent_count + 1 } := by
  rw [send_next_guard_some hg hp]

theorem send_next_snd_of_some {s : FeedState} {e : Event}
    {buf' : List (String × List Event)}
    (hg : (is_full s || s.draining) = true)
    (hp : popEarliest s.data_buffer = some (e, buf')) :
    (send_next s).2 = some e := by
  rw [send_next_guard_some hg hp]

theorem send_next_fst_no_guard {s : FeedState}
    (hg : (is_full s || s.draining) = false) : (send_next s).1 = s := by
  rw [send_next_no_guard hg]

theorem send_next_snd_no_guard {s : FeedState}
    (hg : (is_full s || s.draining) = false) : (send_next s).2 = none := by
  rw [send_next_no_guard hg]

theorem runFeed_stopped' (x : FeedState) (ms : List FeedMsg) :
    runFeed { x with doneSignaled := true } ms
      = Except.ok ({ x with doneSignaled := true }, []) :=
  runFeed_stopped ms rfl

theorem FeedInv_done {low : Option Int} {s : FeedState} {ms : List FeedMsg} {src : String}
    (hInv : FeedInv low s (FeedMsg.done src :: ms)) :
    FeedInv low { s with ds_finished_counter := s.ds_finished_counter + 1 } ms := by
  obtain ⟨hdr, hds, htag, hsort, hbnd⟩ := hInv
  refine ⟨hdr, hds, htag, ?_, ?_⟩
  · intro p hp
    have h := hsort p hp
    rwa [futureOf_done] at h
  · intro p hp x hx
    refine hbnd p hp x ?_
    rwa [futureOf_done]

theorem FeedInv_append {low : Option Int} {s : FeedState} {ms : List FeedMsg}
    {e : Event} {q : List Event}
    (hq : dictGet s.data_buffer e.source_id = some q)
    (hInv : FeedInv low s (FeedMsg.data e :: ms)) :
    FeedInv low { s with data_buffer := pushVal s.data_buffer e.source_id e, received_count := s.received_count + 1 } ms := by
  obtain ⟨hdr, hds, htag, hsort, hbnd⟩ := hInv
  obtain ⟨pre, post, hpre, hl, hpush⟩ := pushVal_split s.data_buffer e.source_id q e hq
  have hmem_of : ∀ p : String × List Event, p ∈ pre ∨ p ∈ post → p ∈ s.data_buffer := by
    intro p hp
    rw [hl]
    rcases hp with h | h
    · exact List.mem_append.mpr (Or.inl h)
    · exact List.mem_append.mpr (Or.inr (List.mem_cons_of_mem _ h))
  have hqmem : (e.source_id, q) ∈ s.data_buffer := by
    rw [hl]; exact List.mem_append.mpr (Or.inr (List.mem_cons_self _ _))
  have hfut_pre : ∀ p : String × List Event, p ∈ pre →
      futureOf p.1 (FeedMsg.data e :: ms) = futureOf p.1 ms := by
    intro p hp
    rw [futureOf_data, if_neg (fun h => hpre p hp h.symm)]
  have hassoc : ∀ l : List Event, (l ++ [e]) ++ futureOf e.source_id ms
      = l ++ futureOf e.source_id (FeedMsg.data e :: ms) := by
    intro l
    rw [futureOf_data, if_pos rfl, List.append_assoc, List.singleton_append]
  refine ⟨hdr, hds, ?_, ?_, ?_⟩
  · intro p hp x hx
    have hp' : p ∈ pre ++ (e.source_id, q ++ [e]) :: post := by rw [← hpush]; exact hp
    rcases List.mem_append.mp hp' with h | h
    · exact htag p (hmem_of p (Or.inl h)) x hx
    · rcases List.mem_cons.mp h with h' | h'
      · subst h'
        have hx' : x ∈ q ++ [e] := hx
        rcases List.mem_append.mp hx' with h'' | h''
        · exact htag (e.source_id, q) hqmem x h''
        · rw [List.mem_singleton.mp h'']
      · exact htag p (hmem_of p (Or.inr h')) x hx
  · intro p hp
    have hp' : p ∈ pre ++ (e.source_id, q ++ [e]) :: post := by rw [← hpush]; exact hp
    rcases List.mem_append.mp hp' with h | h
    · rw [← hfut_pre p h]
      exact hsort p (hmem_of p (Or.inl h))
    · rcases List.mem_cons.mp h with h' | h'
      · subst h'
        show List.Pairwise dtLe ((q ++ [e]) ++ futureOf e.source_id ms)
        rw [hassoc]
        exact hsort (e.source_id, q) hqmem
      · exact List.Pairwise.sublist
          (List.Sublist.append_left (futureOf_data_sublist p.1 e ms) p.2)
          (hsort p (hmem_of p (Or.inr h')))
  · intro p hp x hx
    have hp' : p ∈ pre ++ (e.source_id, q ++ [e]) :: post := by rw [← hpush]; exact hp
    rcases List.mem_append.mp hp' with h | h
    · rw [← hfut_pre p h] at hx
      exact hbnd p (hmem_of p (Or.inl h)) x hx
    · rcases List.mem_cons.mp h with h' | h'
      · subst h'
        have hx' : x ∈ (q ++ [e]) ++ futureOf e.source_id ms := hx
        rw [hassoc] at hx'
        exact hbnd (e.source_id, q) hqmem x hx'
      · refine hbnd p (hmem_of p (Or.inr h')) x ?_
        exact (List.Sublist.append_left (futureOf_data_sublist p.1 e ms) p.2).subset hx

theorem FeedInv_emit {low : Option Int} {s1 : FeedState} {ms : List FeedMsg}
    {e0 : Event} {buf2 : List (String × List Event)}
    (hInv : FeedInv low s1 ms) (hfull : is_full s1 = true)
    (hp : popEarliest s1.data_buffer = some (e0, buf2)) :
    lowBound low e0 ∧
    FeedInv (some e0.dt) { s1 with data_buffer := buf2, sent_count := s1.sent_count + 1 } ms := by
  obtain ⟨hdr, hds, htag, hsort, hbnd⟩ := hInv
  obtain ⟨pre2, k2, tl2, post2, hb, hb'⟩ := popEarliest_split _ _ _ hp
  have hsq : ∀ p ∈ s1.data_buffer, List.Pairwise dtLe p.2 := fun p hp' =>
    List.Pairwise.sublist (List.sublist_append_left _ _) (hsort p hp')
  have hmin := popEarliest_min _ _ _ hp hsq
  have hmem0 : (k2, e0 :: tl2) ∈ s1.data_buffer := by
    rw [hb]; exact List.mem_append.mpr (Or.inr (List.mem_cons_self _ _))
  have hmem_of : ∀ p : String × List Event, p ∈ pre2 ∨ p ∈ post2 → p ∈ s1.data_buffer := by
    intro p hpp
    rw [hb]
    rcases hpp with h | h
    · exact List.mem_append.mpr (Or.inl h)
    · exact List.mem_append.mpr (Or.inr (List.mem_cons_of_mem _ h))
  have hkey : ∀ p ∈ s1.data_buffer, ∀ x ∈ p.2 ++ futureOf p.1 ms, e0.dt ≤ x.dt := by
    intro p hpp x hx
    rcases List.mem_append.mp hx with hxq | hxf
    · exact hmin p hpp x hxq
    · rcases hq : p.2 with _ | ⟨h0, t⟩
      · exact absurd hq (is_full_nonempty hfull p hpp)
      · have hhead : e0.dt ≤ h0.dt :=
          hmin p hpp h0 (by rw [hq]; exact List.mem_cons_self _ _)
        have hps := hsort p hpp
        rw [hq, List.cons_append] at hps
        have hle := (List.pairwise_cons.mp hps).1 x (List.mem_append.mpr (Or.inr hxf))
        exact le_trans hhead hle
  constructor
  · exact hbnd (k2, e0 :: tl2) hmem0 e0
      (List.mem_append.mpr (Or.inl (List.mem_cons_self _ _)))
  refine ⟨hdr, hds, ?_, ?_, ?_⟩
  · intro p hpp x hx
    have hpp' : p ∈ pre2 ++ (k2, tl2) :: post2 := by rw [← hb']; exact hpp
    rcases List.mem_append.mp hpp' with h | h
    · exact htag p (hmem_of p (Or.inl h)) x hx
    · rcases List.mem_cons.mp h with h' | h'
      · subst h'
        exact htag (k2, e0 :: tl2) hmem0 x (List.mem_cons_of_mem _ hx)
      · exact htag p (hmem_of p (Or.inr h')) x hx
  · intro p hpp
    have hpp' : p ∈ pre2 ++ (k2, tl2) :: post2 := by rw [← hb']; exact hpp
    rcases List.mem_append.mp hpp' with h | h
    · exact hsort p (hmem_of p (Or.inl h))
    · rcases List.mem_cons.mp h with h' | h'
      · subst h'
        have hps := hsort (k2, e0 :: tl2) hmem0
        rw [List.cons_append] at hps
        exact (List.pairwise_cons.mp hps).2
      · exact hsort p (hmem_of p (Or.inr h'))
  · intro p hpp x hx d hd
    injection hd with hd
    subst hd
    have hpp' : p ∈ pre2 ++ (k2, tl2) :: post2 := by rw [← hb']; exact hpp
    rcases List.mem_append.mp hpp' with h | h
    · exact hkey p (hmem_of p (Or.inl h)) x hx
    · rcases List.mem_cons.mp h with h' | h'
      · subst h'
        refine hkey (k2, e0 :: tl2) hmem0 x ?_
        rcases List.mem_append.mp hx with hxq | hxf
        · exact List.mem_append.mpr (Or.inl (List.mem_cons_of_mem _ hxq))
        · exact List.mem_append.mpr (Or.inr hxf)
      · exact hkey p (hmem_of p (Or.inr h')) x hx

/-- Core induction: under the run invariant, the published stream is
non-decreasing in `dt` and bounded below by `low`. -/
theorem runFeed_ord : ∀ (ms : List FeedMsg) (s : FeedState) (low : Option Int)
    (s' : FeedState) (out : List Event),
    FeedInv low s ms → runFeed s ms = Except.ok (s', out) →
    List.Pairwise dtLe out ∧ ∀ e ∈ out, lowBound low e := by
  intro ms
  induction ms with
  | nil =>
    intro s low s' out _ hrun
    rw [runFeed] at hrun
    injection hrun with hrun
    have hout : out = [] := (congrArg Prod.snd hrun).symm
    subst hout
    simp
  | cons m ms ih =>
    intro s low s' out hInv hrun
    have hds := hInv.2.1
    cases m with
    | done src =>
      by_cases hlen : s.data_buffer.length = s.ds_finished_counter + 1
      · rw [runFeed_cons_ok hds (feedDoWork_done_pos src hlen)] at hrun
        rw [runFeed_stopped'] at hrun
        rw [seqOut_ok] at hrun
        injection hrun with hrun
        have hout : out = (drain { s with ds_finished_counter := s.ds_finished_counter + 1 }).2 ++ [] :=
          (congrArg Prod.snd hrun).symm
        obtain ⟨_, _, _, hsort, hbnd⟩ := hInv
        have hsq : ∀ p ∈ s.data_buffer, List.Pairwise dtLe p.2 := fun p hp =>
          List.Pairwise.sublist (List.sublist_append_left _ _) (hsort p hp)
        have hbd : ∀ p ∈ s.data_buffer, ∀ x ∈ p.2, lowBound low x := fun p hp x hx =>
          hbnd p hp x (List.mem_append.mpr (Or.inl hx))
        obtain ⟨d1, d2⟩ :=
          drain_ord { s with ds_finished_counter := s.ds_finished_counter + 1 } low hsq hbd
        rw [hout, List.append_nil]
        exact ⟨d1, d2⟩
      · rw [runFeed_cons_ok hds (feedDoWork_done_neg src hlen)] at hrun
        rcases hr2 : runFeed { s with ds_finished_counter := s.ds_finished_counter + 1 } ms
          with er | r2
        · rw [hr2, seqOut_err] at hrun; cases hrun
        · rw [hr2, seqOut_ok] at hrun
          injection hrun with hrun
          have hout : out = [] ++ r2.2 := (congrArg Prod.snd hrun).symm
          obtain ⟨p1, p2⟩ := ih { s with ds_finished_counter := s.ds_finished_counter + 1 }
            low r2.1 r2.2 (FeedInv_done hInv) (by rw [hr2])
          rw [hout, List.nil_append]
          exact ⟨p1, p2⟩
    | data e =>
      rcases hq : dictGet s.data_buffer e.source_id with _ | q
      · rw [runFeed_cons_err hds (feedDoWork_data_err (appendEvent_err hq))] at hrun
        cases hrun
      · rcases ha : appendEvent s e with er | S1
        · rw [appendEvent_ok hq] at ha; cases ha
        · have hS1 : S1 = { s with data_buffer := pushVal s.data_buffer e.source_id e, received_count := s.received_count + 1 } := by
            rw [appendEvent_ok hq] at ha
            injection ha with ha
            exact ha.symm
          have hInv1 : FeedInv low S1 ms := by
            rw [hS1]; exact FeedInv_append hq hInv
          rw [runFeed_cons_ok hds (feedDoWork_data ha)] at hrun
          by_cases hguard : (is_full S1 || S1.draining) = true
          · have hpend : 0 < pending_messages S1 := by
              obtain ⟨pre, post, hpre, hl, hpush⟩ :=
                pushVal_split s.data_buffer e.source_id q e hq
              have hdef : pending_messages S1 = (S1.data_buffer.map (fun p => p.2.length)).sum := rfl
              have hb1 : S1.data_buffer = pre ++ (e.source_id, q ++ [e]) :: post := by
                rw [hS1]; exact hpush
              rw [hdef, hb1]
              simp only [List.map_append, List.sum_append, List.map_cons, List.sum_cons,
                List.length_append, List.length_cons, List.length_nil]
              omega
            obtain ⟨e0, buf2, hp⟩ := popEarliest_isSome_of_pending S1.data_buffer hpend
            have hfull : is_full S1 = true := by
              rcases (Bool.or_eq_true _ _).mp hguard with h | h
              · exact h
              · rw [hInv1.1] at h; cases h
            obtain ⟨hlow0, hInv2⟩ := FeedInv_emit hInv1 hfull hp
            rw [send_next_fst_of_some hguard hp, send_next_snd_of_some hguard hp] at hrun
            rcases hr2 : runFeed { S1 with data_buffer := buf2, sent_count := S1.sent_count + 1 } ms
              with er | r2
            · rw [hr2, seqOut_err] at hrun; cases hrun
            · rw [hr2, seqOut_ok] at hrun
              injection hrun with hrun
              have hout : out = (some e0).toList ++ r2.2 := (congrArg Prod.snd hrun).symm
              obtain ⟨p1, p2⟩ := ih { S1 with data_buffer := buf2, sent_count := S1.sent_count + 1 }
                (some e0.dt) r2.1 r2.2 hInv2 (by rw [hr2])
              rw [hout]
              simp only [Option.toList_some, List.singleton_append]
              constructor
              · rw [List.pairwise_cons]
                exact ⟨fun x hx => (p2 x hx) e0.dt rfl, p1⟩
              · intro x hx
                rcases List.mem_cons.mp hx with h' | h'
                · rw [h']; exact hlow0
                · intro d hd
                  exact le_trans (hlow0 d hd) ((p2 x h') e0.dt rfl)
          · have hng : (is_full S1 || S1.draining) = false := by
              rcases hB : (is_full S1 || S1.draining) with _ | _
              · rfl
              · exact absurd hB hguard
            rw [send_next_fst_no_guard hng, send_next_snd_no_guard hng] at hrun
            rcases hr2 : runFeed S1 ms with er | r2
            · rw [hr2, seqOut_err] at hrun; cases hrun
            · rw [hr2, seqOut_ok] at hrun
              injection hrun with hrun
              have hout : out = (none : Option Event).toList ++ r2.2 :=
                (congrArg Prod.snd hrun).symm
              obtain ⟨p1, p2⟩ := ih S1 low r2.1 r2.2 hInv1 (by rw [hr2])
              rw [hout]
              simp only [Option.toList_none, List.nil_append]
              exact ⟨p1, p2⟩

theorem dictSet_mem {α : Type} : ∀ (l : List (String × α)) (k : String) (v : α)
    (p : String × α), p ∈ dictSet l k v → p ∈ l ∨ p = (k, v) := by
  intro l
  induction l with
  | nil =>
    intro k v p hp
    rw [dictSet] at hp
    right
    rcases List.mem_cons.mp hp with h | h
    · exact h
    · cases h
  | cons a rest ih =>
    intro k v p hp
    rw [dictSet] at hp
    by_cases hk : a.1 = k
    · rw [if_pos hk] at hp
      rcases List.mem_cons.mp hp with h | h
      · right; exact h
      · left; exact List.mem_cons_of_mem _ h
    · rw [if_neg hk] at hp
      rcases List.mem_cons.mp hp with h | h
      · left; rw [h]; exact List.mem_cons_self _ _
      · rcases ih k v p h with h' | h'
        · left; exact List.mem_cons_of_mem _ h'
        · right; exact h'

theorem initFeed_aux : ∀ (sources : List String) (acc : FeedState),
    (∀ p ∈ acc.data_buffer, p.2 = ([] : List Event)) →
    (sources.foldl add_source acc).draining = acc.draining ∧
    (sources.foldl add_source acc).doneSignaled = acc.doneSignaled ∧
    (sources.foldl add_source acc).sent_count = acc.sent_count ∧
    (sources.foldl add_source acc).received_count = acc.received_count ∧
    (sources.foldl add_source acc).ds_finished_counter = acc.ds_finished_counter ∧
    ∀ p ∈ (sources.foldl add_source acc).data_buffer, p.2 = [] := by
  intro sources
  induction sources with
  | nil => intro acc h; exact ⟨rfl, rfl, rfl, rfl, rfl, h⟩
  | cons src rest ih =>
    intro acc h
    rw [List.foldl_cons]
    refine ih (add_source acc src) ?_
    intro p hp
    rcases dictSet_mem acc.data_buffer src [] p hp with h' | h'
    · exact h p h'
    · rw [h']

/-- C1: in every run of the Feed started from freshly registered sources in
which each source delivers its events in non-decreasing `dt` order, the events
published by the successive `send_next()` calls — those issued while the
`is_full()` gate holds as well as those issued while draining — form a
sequence that is non-decreasing in `dt`. -/
theorem feed_output_chronological (sources : List String) (ms : List FeedMsg)
    (hsrc : ∀ src : String, List.Chain' dtLe (futureOf src ms))
    (s' : FeedState) (out : List Event)
    (hrun : runFeed (initFeed sources) ms = Except.ok (s', out)) :
    List.Chain' dtLe out := by
  obtain ⟨hd, hs, _, _, _, hq⟩ :=
    initFeed_aux sources initFeedState (by intro p hp; cases hp)
  have hInv : FeedInv none (initFeed sources) ms := by
    refine ⟨hd, hs, ?_, ?_, ?_⟩
    · intro p hp x hx
      rw [hq p hp] at hx
      cases hx
    · intro p hp
      rw [hq p hp, List.nil_append]
      exact List.chain'_iff_pairwise.mp (hsrc p.1)
    · intro p hp x hx d hd'
      cases hd'
  obtain ⟨hp1, _⟩ := runFeed_ord ms (initFeed sources) none s' out hInv hrun
  exact List.chain'_iff_pairwise.mpr hp1

/-- Witness for C1: a concrete run (single source, events at `dt` 1 then 2)
produces a chronological output stream. -/
theorem feed_output_chronological_witness :
    List.Chain' dtLe [⟨"A", 1, ""⟩, ⟨"A", 2, ""⟩] :=
  feed_output_chronological ["A"] [FeedMsg.data ⟨"A", 1, ""⟩, FeedMsg.data ⟨"A", 2, ""⟩]
    (by
      intro src
      by_cases h : ("A" : String) = src
      · simp [futureOf, List.filterMap_cons, h, dtLe]
      · simp [futureOf, List.filterMap_cons, h])
    ⟨2, 2, false, [("A", [])], 0, false⟩ [⟨"A", 1, ""⟩, ⟨"A", 2, ""⟩] rfl

theorem countDones_append : ∀ (a b : List FeedMsg),
    countDones (a ++ b) = countDones a + countDones b := by
  intro a b
  induction a with
  | nil => simp [countDones]
  | cons m rest ih =>
    cases m with
    | done src => rw [List.cons_append, countDones, countDones, ih]; omega
    | data e => rw [List.cons_append, countDones, countDones, ih]

theorem dataEvents_append : ∀ (a b : List FeedMsg),
    dataEvents (a ++ b) = dataEvents a ++ dataEvents b := by
  intro a b
  induction a with
  | nil => simp [dataEvents]
  | cons m rest ih =>
    cases m with
    | done src => rw [List.cons_append, dataEvents, dataEvents, ih]
    | data e => rw [List.cons_append, dataEvents, dataEvents, ih, List.cons_append]

theorem dictGet_isSome_of_mem_keys {α : Type} :
    ∀ (l : List (String × α)) (k : String), k ∈ l.map Prod.fst →
    ∃ v, dictGet l k = some v := by
  intro l
  induction l with
  | nil => intro k hk; cases hk
  | cons a rest ih =>
    intro k hk
    by_cases h : a.1 = k
    · exact ⟨a.2, by rw [dictGet, if_pos h]⟩
    · rcases List.mem_cons.mp hk with h' | h'
      · exact absurd h'.symm h
      · obtain ⟨v, hv⟩ := ih k h'
        exact ⟨v, by rw [dictGet, if_neg h, hv]⟩

theorem keys_pushVal {s : FeedState} {e : Event} {q : List Event}
    (hq : dictGet s.data_buffer e.source_id = some q) :
    (pushVal s.data_buffer e.source_id e).map Prod.fst = s.data_buffer.map Prod.fst := by
  obtain ⟨pre, post, _, hl, hpush⟩ := pushVal_split s.data_buffer e.source_id q e hq
  rw [hpush, hl]
  simp

theorem pending_pushVal {s : FeedState} {e : Event} {q : List Event}
    (hq : dictGet s.data_buffer e.source_id = some q) :
    ((pushVal s.data_buffer e.source_id e).map (fun p => p.2.length)).sum
      = (s.data_buffer.map (fun p => p.2.length)).sum + 1 := by
  obtain ⟨pre, post, _, hl, hpush⟩ := pushVal_split s.data_buffer e.source_id q e hq
  rw [hpush, hl]
  simp [List.map_append, List.sum_append]
  omega

theorem dictSet_not_mem {α : Type} : ∀ (l : List (String × α)) (k : String) (v : α),
    k ∉ l.map Prod.fst → dictSet l k v = l ++ [(k, v)] := by
  intro l
  induction l with
  | nil => intro k v _; rfl
  | cons a rest ih =>
    intro k v hk
    have h1 : a.1 ≠ k := by
      intro h
      exact hk (by rw [← h]; exact List.mem_map_of_mem _ (List.mem_cons_self _ _))
    have h2 : k ∉ rest.map Prod.fst := fun h =>
      hk (List.mem_cons_of_mem _ h)
    rw [dictSet, if_neg h1, ih k v h2, List.cons_append]

theorem foldl_add_source_buffer : ∀ (sources : List String) (acc : FeedState),
    sources.Nodup →
    (∀ src ∈ sources, src ∉ acc.data_buffer.map Prod.fst) →
    (sources.foldl add_source acc).data_buffer
      = acc.data_buffer ++ sources.map (fun src => (src, [])) := by
  intro sources
  induction sources with
  | nil => intro acc _ _; simp
  | cons src rest ih =>
    intro acc hnd hdis
    rw [List.foldl_cons]
    have hs : src ∉ acc.data_buffer.map Prod.fst := hdis src (List.mem_cons_self _ _)
    have hbuf : (add_source acc src).data_buffer = acc.data_buffer ++ [(src, [])] :=
      dictSet_not_mem acc.data_buffer src [] hs
    have hrest : ∀ s' ∈ rest, s' ∉ (add_source acc src).data_buffer.map Prod.fst := by
      intro s' hs' hmem
      rw [hbuf] at hmem
      rw [List.map_append] at hmem
      rcases List.mem_append.mp hmem with h | h
      · exact hdis s' (List.mem_cons_of_mem _ hs') h
      · simp at h
        rcases List.nodup_cons.mp hnd with ⟨hn, _⟩
        exact hn (h ▸ hs')
    rw [ih (add_source acc src) (List.nodup_cons.mp hnd).2 hrest, hbuf]
    simp

theorem initFeed_keys (sources : List String) (hnd : sources.Nodup) :
    (initFeed sources).data_buffer.map Prod.fst = sources := by
  have h := foldl_add_source_buffer sources initFeedState hnd (by intro src _ h; cases h)
  rw [initFeed, h]
  simp [initFeedState]
  have : (Prod.fst ∘ fun src : String => (src, ([] : List Event))) = id := by
    funext src
    rfl
  rw [this, List.map_id]

theorem pending_zero_of_empty {s : FeedState}
    (h : ∀ p ∈ s.data_buffer, p.2 = ([] : List Event)) :
    pending_messages s = 0 := by
  rw [pending_messages]
  have : s.data_buffer.map (fun p => p.2.length) = s.data_buffer.map (fun _ => 0) := by
    apply List.map_congr_left
    intro p hp
    rw [h p hp]
    rfl
  rw [this]
  simp

/-- While fewer DONEs have arrived than there are sources, the Feed keeps
running: the run succeeds and `signal_done()` has not been called. -/
theorem runFeed_partial : ∀ (ms : List FeedMsg) (sources : List String) (s : FeedState),
    s.data_buffer.map Prod.fst = sources →
    s.draining = false → s.doneSignaled = false →
    s.ds_finished_counter + countDones ms < sources.length →
    (∀ e ∈ dataEvents ms, e.source_id ∈ sources) →
    ∃ s2 out, runFeed s ms = Except.ok (s2, out) ∧ s2.doneSignaled = false := by
  intro ms
  induction ms with
  | nil =>
    intro sources s _ _ hds _ _
    exact ⟨s, [], by rw [runFeed], hds⟩
  | cons m tail ih =>
    intro sources s hkeys hdr hds hlt hsrcs
    cases m with
    | done src =>
      rw [countDones] at hlt
      have hlen_eq : s.data_buffer.length = sources.length := by
        rw [← hkeys, List.length_map]
      have hlen : ¬ s.data_buffer.length = s.ds_finished_counter + 1 := by omega
      obtain ⟨s2, out2, hr2, hds2⟩ :=
        ih sources { s with ds_finished_counter := s.ds_finished_counter + 1 }
          hkeys hdr hds
          (by show s.ds_finished_counter + 1 + countDones tail < sources.length; omega)
          (fun e he => hsrcs e he)
      refine ⟨s2, [] ++ out2, ?_, hds2⟩
      rw [runFeed_cons_ok hds (feedDoWork_done_neg src hlen), hr2, seqOut_ok]
    | data e =>
      have hmem : e.source_id ∈ sources :=
        hsrcs e (by rw [dataEvents]; exact List.mem_cons_self _ _)
      obtain ⟨q, hq⟩ := dictGet_isSome_of_mem_keys s.data_buffer e.source_id
        (by rw [hkeys]; exact hmem)
      have ha := appendEvent_ok hq
      obtain ⟨f1, f2, f3, f4, f5, f6, f7⟩ := send_next_fields
        { s with data_buffer := pushVal s.data_buffer e.source_id e, received_count := s.received_count + 1 }
      obtain ⟨s2, out2, hr2, hds2⟩ :=
        ih sources (send_next { s with data_buffer := pushVal s.data_buffer e.source_id e, received_count := s.received_count + 1 }).1
          (by rw [f5]; show (pushVal s.data_buffer e.source_id e).map Prod.fst = sources; rw [keys_pushVal hq, hkeys])
          (by rw [f3]; exact hdr)
          (by rw [f4]; exact hds)
          (by rw [f2]; show s.ds_finished_counter + countDones tail < sources.length; rw [countDones] at hlt; exact hlt)
          (fun e' he' => hsrcs e' (by rw [dataEvents]; exact List.mem_cons_of_mem _ he'))
      refine ⟨s2, (send_next { s with data_buffer := pushVal s.data_buffer e.source_id e, received_count := s.received_count + 1 }).2.toList ++ out2, ?_, hds2⟩
      rw [runFeed_cons_ok hds (feedDoWork_data ha), hr2, seqOut_ok]

/-- Once the DONE count reaches the number of sources — with each run ending
on that final DONE — the Feed drains completely: the run succeeds, the Feed
has sent exactly what it received (every data event), and only then has it
signalled DONE. -/
theorem runFeed_complete : ∀ (ms : List FeedMsg) (sources : List String) (s : FeedState),
    s.data_buffer.map Prod.fst = sources →
    s.received_count = s.sent_count + pending_messages s →
    s.draining = false → s.doneSignaled = false →
    s.ds_finished_counter < sources.length →
    s.ds_finished_counter + countDones ms = sources.length →
    (∀ e ∈ dataEvents ms, e.source_id ∈ sources) →
    (∀ pre (e : Event), ms ≠ pre ++ [FeedMsg.data e]) →
    ∃ s2 out, runFeed s ms = Except.ok (s2, out) ∧ s2.doneSignaled = true ∧
      s2.received_count = s.received_count + (dataEvents ms).length ∧
      s2.sent_count = s2.received_count ∧
      s2.sent_count = s.sent_count + out.length := by
  intro ms
  induction ms with
  | nil =>
    intro sources s _ _ _ _ hstrict hcount _ _
    rw [countDones] at hcount
    exfalso
    omega
  | cons m tail ih =>
    intro sources s hkeys hcons hdr hds hstrict hcount hsrcs hlast
    have hlen_eq : s.data_buffer.length = sources.length := by
      rw [← hkeys, List.length_map]
    cases m with
    | done src =>
      rw [countDones] at hcount
      by_cases hfin : s.ds_finished_counter + 1 = sources.length
      · -- the final DONE: the Feed drains and signals DONE
        have hlen : s.data_buffer.length = s.ds_finished_counter + 1 := by omega
        have htail : tail = [] := by
          rcases List.eq_nil_or_concat tail with h | ⟨pre', m', h⟩
          · exact h
          · rw [List.concat_eq_append] at h
            exfalso
            cases m' with
            | data e => exact hlast (FeedMsg.done src :: pre') e (by rw [h, List.cons_append])
            | done src' =>
              have hcd : countDones tail = countDones pre' + 1 := by
                rw [h, countDones_append]
                rfl
              omega
        subst htail
        obtain ⟨d1, d2, d3, d4, d5, d6, d7, d8⟩ :=
          drain_spec { s with ds_finished_counter := s.ds_finished_counter + 1 }
        have hrun : runFeed s [FeedMsg.done src]
            = Except.ok (({ (drain { s with ds_finished_counter := s.ds_finished_counter + 1 }).1 with doneSignaled := true } : FeedState),
                (drain { s with ds_finished_counter := s.ds_finished_counter + 1 }).2 ++ []) := by
          rw [runFeed_cons_ok hds (feedDoWork_done_pos src hlen), runFeed_stopped', seqOut_ok]
        refine ⟨_, _, hrun, rfl, ?_, ?_, ?_⟩
        · show (drain { s with ds_finished_counter := s.ds_finished_counter + 1 }).1.received_count
            = s.received_count + (dataEvents [FeedMsg.done src]).length
          rw [d5]
          rfl
        · show (drain { s with ds_finished_counter := s.ds_finished_counter + 1 }).1.sent_count
            = (drain { s with ds_finished_counter := s.ds_finished_counter + 1 }).1.received_count
          rw [d4, d5]
          show s.sent_count + pending_messages s = s.received_count
          omega
        · show (drain { s with ds_finished_counter := s.ds_finished_counter + 1 }).1.sent_count
            = s.sent_count + ((drain { s with ds_finished_counter := s.ds_finished_counter + 1 }).2 ++ []).length
          rw [d4]
          simp only [List.append_nil]
          rw [d3]
      · -- a non-final DONE: keep running
        have hlen : ¬ s.data_buffer.length = s.ds_finished_counter + 1 := by omega
        have hlast' : ∀ pre (e : Event), tail ≠ pre ++ [FeedMsg.data e] := by
          intro pre e h
          exact hlast (FeedMsg.done src :: pre) e (by rw [h, List.cons_append])
        obtain ⟨s2, out2, hr2, hP1, hP2, hP3, hP4⟩ :=
          ih sources { s with ds_finished_counter := s.ds_finished_counter + 1 }
            hkeys hcons hdr hds
            (by show s.ds_finished_counter + 1 < sources.length; omega)
            (by show s.ds_finished_counter + 1 + countDones tail = sources.length; omega)
            (fun e he => hsrcs e he) hlast'
        refine ⟨s2, [] ++ out2, ?_, hP1, ?_, hP3, ?_⟩
        · rw [runFeed_cons_ok hds (feedDoWork_done_neg src hlen), hr2, seqOut_ok]
        · rw [hP2]
          rfl
        · rw [hP4]
          simp only [List.nil_append]
    | data e =>
      have hmem : e.source_id ∈ sources :=
        hsrcs e (by rw [dataEvents]; exact List.mem_cons_self _ _)
      obtain ⟨q, hq⟩ := dictGet_isSome_of_mem_keys s.data_buffer e.source_id
        (by rw [hkeys]; exact hmem)
      have ha := appendEvent_ok hq
      have hpend1 : pending_messages ({ s with data_buffer := pushVal s.data_buffer e.source_id e, received_count := s.received_count + 1 } : FeedState) = pending_messages s + 1 :=
        pending_pushVal hq
      have hrc1 : ({ s with data_buffer := pushVal s.data_buffer e.source_id e, received_count := s.received_count + 1 } : FeedState).received_count = s.received_count + 1 := rfl
      have hsc1 : ({ s with data_buffer := pushVal s.data_buffer e.source_id e, received_count := s.received_count + 1 } : FeedState).sent_count = s.sent_count := rfl
      obtain ⟨f1, f2, f3, f4, f5, f6, f7⟩ := send_next_fields
        { s with data_buffer := pushVal s.data_buffer e.source_id e, received_count := s.received_count + 1 }
      have hlast' : ∀ pre (e' : Event), tail ≠ pre ++ [FeedMsg.data e'] := by
        intro pre e' h
        exact hlast (FeedMsg.data e :: pre) e' (by rw [h, List.cons_append])
      obtain ⟨s2, out2, hr2, hP1, hP2, hP3, hP4⟩ :=
        ih sources (send_next { s with data_buffer := pushVal s.data_buffer e.source_id e, received_count := s.received_count + 1 }).1
          (by rw [f5]; show (pushVal s.data_buffer e.source_id e).map Prod.fst = sources; rw [keys_pushVal hq, hkeys])
          (by rw [f1, f6]; omega)
          (by rw [f3]; exact hdr)
          (by rw [f4]; exact hds)
          (by rw [f2]; exact hstrict)
          (by rw [f2]; show s.ds_finished_counter + countDones tail = sources.length; rw [countDones] at hcount; exact hcount)
          (fun e' he' => hsrcs e' (by rw [dataEvents]; exact List.mem_cons_of_mem _ he')) hlast'
      have hde : (dataEvents (FeedMsg.data e :: tail)).length = (dataEvents tail).length + 1 := by
        rw [dataEvents]
        exact List.length_cons _ _
      refine ⟨s2, (send_next { s with data_buffer := pushVal s.data_buffer e.source_id e, received_count := s.received_count + 1 }).2.toList ++ out2, ?_, hP1, ?_, hP3, ?_⟩
      · rw [runFeed_cons_ok hds (feedDoWork_data ha), hr2, seqOut_ok]
      · rw [hde]
        rw [f1, hrc1] at hP2
        omega
      · rw [List.length_append]
        rw [f6, hsc1] at hP4
        omega

theorem sum_map_if (t : String) (f : String → Nat) :
    ∀ sources : List String, sources.Nodup → t ∈ sources →
    (sources.map (fun src => if t = src then f src + 1 else f src)).sum
      = (sources.map f).sum + 1 := by
  intro sources
  induction sources with
  | nil => intro _ h; cases h
  | cons a rest ih =>
    intro hnd hmem
    rw [List.map_cons, List.map_cons, List.sum_cons, List.sum_cons]
    by_cases h : t = a
    · rw [if_pos h]
      have hnotin : t ∉ rest := by
        rcases List.nodup_cons.mp hnd with ⟨hn, _⟩
        rw [h]; exact hn
      have hcg : rest.map (fun src => if t = src then f src + 1 else f src) = rest.map f := by
        apply List.map_congr_left
        intro x hx
        rw [if_neg (fun hh => hnotin (by rw [hh]; exact hx))]
      rw [hcg]
      omega
    · rw [if_neg h]
      have hmem' : t ∈ rest := by
        rcases List.mem_cons.mp hmem with h' | h'
        · exact absurd h' h
        · exact h'
      rw [ih (List.nodup_cons.mp hnd).2 hmem']
      omega

/-- The data events of a run are distributed over the (distinct) sources:
`sum over S of |S|` equals the total number of data events. -/
theorem sum_futureOf (sources : List String) (hnd : sources.Nodup) :
    ∀ ms : List FeedMsg, (∀ e ∈ dataEvents ms, e.source_id ∈ sources) →
    (sources.map (fun src => (futureOf src ms).length)).sum = (dataEvents ms).length := by
  intro ms
  induction ms with
  | nil =>
    intro _
    have hcg : sources.map (fun src => (futureOf src []).length) = sources.map (fun _ => 0) := by
      apply List.map_congr_left
      intro src _
      rfl
    rw [hcg, dataEvents]
    simp
  | cons m tail ih =>
    cases m with
    | done src' =>
      intro hsrcs
      have hcg : sources.map (fun src => (futureOf src (FeedMsg.done src' :: tail)).length)
          = sources.map (fun src => (futureOf src tail).length) := by
        apply List.map_congr_left
        intro src _
        rw [futureOf_done]
      rw [hcg, dataEvents]
      exact ih (fun e he => hsrcs e he)
    | data e =>
      intro hsrcs
      have hmem : e.source_id ∈ sources :=
        hsrcs e (by rw [dataEvents]; exact List.mem_cons_self _ _)
      have hcg : sources.map (fun src => (futureOf src (FeedMsg.data e :: tail)).length)
          = sources.map (fun src => if e.source_id = src then (futureOf src tail).length + 1
              else (futureOf src tail).length) := by
        apply List.map_congr_left
        intro src _
        rw [futureOf_data]
        by_cases h : e.source_id = src
        · rw [if_pos h, if_pos h, List.length_cons]
        · rw [if_neg h, if_neg h]
      rw [hcg, sum_map_if e.source_id (fun src => (futureOf src tail).length) sources hnd hmem]
      rw [dataEvents, List.length_cons]
      rw [ih (fun e' he' => hsrcs e' (by rw [dataEvents]; exact List.mem_cons_of_mem _ he'))]

/-- C2: for a run with `k` distinct sources in which exactly `k` DONE
sentinels arrive (the run ending on the final DONE) and every data message
unframes to an event of a registered source, the Feed ends the run having
sent exactly as many events as it received — the total number of data events,
i.e. the sum over the sources of their event counts — and `signal_done()` is
called only once all `k` DONEs are in: every strict prefix of the run missing
a DONE leaves the Feed with DONE unsignalled. -/
theorem feed_complete_emission (sources : List String) (ms : List FeedMsg)
    (hnd : sources.Nodup) (hpos : 0 < sources.length)
    (hcnt : countDones ms = sources.length)
    (hsrcs : ∀ e ∈ dataEvents ms, e.source_id ∈ sources)
    (hlast : ∀ pre (e : Event), ms ≠ pre ++ [FeedMsg.data e]) :
    (∃ s2 out, runFeed (initFeed sources) ms = Except.ok (s2, out) ∧
      s2.doneSignaled = true ∧
      s2.received_count = (dataEvents ms).length ∧
      s2.sent_count = s2.received_count ∧
      out.length = (dataEvents ms).length ∧
      (dataEvents ms).length
        = (sources.map (fun src => (futureOf src ms).length)).sum) ∧
    (∀ pre suf, ms = pre ++ suf → countDones pre < sources.length →
      ∃ s3 out3, runFeed (initFeed sources) pre = Except.ok (s3, out3) ∧
        s3.doneSignaled = false) := by
  obtain ⟨hd, hs, hsent, hrecv, hcounter, hq⟩ :=
    initFeed_aux sources initFeedState (by intro p hp; cases hp)
  have hd' : (initFeed sources).draining = false := hd
  have hs' : (initFeed sources).doneSignaled = false := hs
  have hsent' : (initFeed sources).sent_count = 0 := hsent
  have hrecv' : (initFeed sources).received_count = 0 := hrecv
  have hcounter' : (initFeed sources).ds_finished_counter = 0 := hcounter
  have hkeys := initFeed_keys sources hnd
  have hpend0 : pending_messages (initFeed sources) = 0 := pending_zero_of_empty hq
  constructor
  · obtain ⟨s2, out, hr, h1, h2, h3, h4⟩ :=
      runFeed_complete ms sources (initFeed sources) hkeys
        (by rw [hrecv', hsent', hpend0])
        hd' hs'
        (by rw [hcounter']; exact hpos)
        (by rw [hcounter']; omega)
        hsrcs hlast
    rw [hrecv'] at h2
    rw [hsent'] at h4
    refine ⟨s2, out, hr, h1, by omega, h3, by omega, ?_⟩
    exact (sum_futureOf sources hnd ms hsrcs).symm
  · intro pre suf hms hlt
    have hsrcs' : ∀ e ∈ dataEvents pre, e.source_id ∈ sources := by
      intro e he
      refine hsrcs e ?_
      rw [hms, dataEvents_append]
      exact List.mem_append.mpr (Or.inl he)
    obtain ⟨s3, out3, hr3, hds3⟩ :=
      runFeed_partial pre sources (initFeed sources) hkeys hd' hs'
        (by rw [hcounter']; omega) hsrcs'
    exact ⟨s3, out3, hr3, hds3⟩

/-- Witness for C2: one source, one event, one DONE — the Feed sends the one
event it received and signals DONE. -/
theorem feed_complete_emission_witness :
    ∃ s2 out,
      runFeed (initFeed ["A"]) [FeedMsg.data ⟨"A", 1, ""⟩, FeedMsg.done "A"]
        = Except.ok (s2, out) ∧
      s2.doneSignaled = true ∧
      s2.received_count = (dataEvents [FeedMsg.data ⟨"A", 1, ""⟩, FeedMsg.done "A"]).length ∧
      s2.sent_count = s2.received_count ∧
      out.length = (dataEvents [FeedMsg.data ⟨"A", 1, ""⟩, FeedMsg.done "A"]).length ∧
      (dataEvents [FeedMsg.data ⟨"A", 1, ""⟩, FeedMsg.done "A"]).length
        = ((["A"] : List String).map
            (fun src => (futureOf src [FeedMsg.data ⟨"A", 1, ""⟩, FeedMsg.done "A"]).length)).sum :=
  (feed_complete_emission ["A"] [FeedMsg.data ⟨"A", 1, ""⟩, FeedMsg.done "A"]
    (by decide) (by decide) rfl (by decide)
    (by
      intro pre e h
      have hg := congrArg List.getLast? h
      rw [List.getLast?_concat] at hg
      simp at hg)).1

theorem dictGet_dictSet_self {α : Type} : ∀ (l : List (String × α)) (k : String) (v : α),
    dictGet (dictSet l k v) k = some v := by
  intro l
  induction l with
  | nil => intro k v; rw [dictSet, dictGet, if_pos rfl]
  | cons a rest ih =>
    intro k v
    rw [dictSet]
    by_cases hk : a.1 = k
    · rw [if_pos hk, dictGet, if_pos rfl]
    · rw [if_neg hk, dictGet, if_neg hk, ih]

theorem dictSet_mem_self {α : Type} : ∀ (l : List (String × α)) (k : String) (v : α),
    (k, v) ∈ dictSet l k v := by
  intro l
  induction l with
  | nil => intro k v; rw [dictSet]; exact List.mem_cons_self _ _
  | cons a rest ih =>
    intro k v
    rw [dictSet]
    by_cases hk : a.1 = k
    · rw [if_pos hk]; exact List.mem_cons_self _ _
    · rw [if_neg hk]; exact List.mem_cons_of_mem _ (ih k v)

/-- C3 (code bug): on an empty poll, `PassthroughTransform.do_work` does not
"send nothing" — the send statement is dedented out of the receive branch, so
the step raises `UnboundLocalError` on the never-assigned local `message`.
On a received data message the claim's first half does hold: exactly one
TRANSFORM message named PASSTHROUGH carrying the raw framed payload. -/
theorem passthrough_empty_poll_raises :
    passthrough_do_work "DONE" none = Except.error PyErr.unboundLocalError ∧
    passthrough_do_work "DONE" (some "framed-feed-payload")
      = Except.ok ([("PASSTHROUGH", "framed-feed-payload")], false) :=
  ⟨rfl, rfl⟩

/-- C4 (counterexample): with two registered sources, two DONE sentinels from
the same source "A" drive `ds_finished_counter` from 0 to 2 — the two
deliveries together increase the counter by two, not by at most one. -/
theorem double_done_counts_twice_cex :
    (runFeed (initFeed ["A", "B"]) [FeedMsg.done "A", FeedMsg.done "A"]).map
      (fun r => r.1.ds_finished_counter) = Except.ok 2 := rfl

/-- C4 (amended): processing a DONE sentinel always increments
`ds_finished_counter` by exactly one — the Feed keeps no per-source latch
(the wire sentinel does not even identify its sender), so a source delivering
DONE twice increases the counter by two when both deliveries are processed. -/
theorem done_increment_unlatched (s : FeedState) (src : String) :
    (feedDoWork s (FeedMsg.done src)).map (fun r => r.1.ds_finished_counter)
      = Except.ok (s.ds_finished_counter + 1) := by
  by_cases hlen : s.data_buffer.length = s.ds_finished_counter + 1
  · rw [feedDoWork_done_pos src hlen]
    obtain ⟨_, _, _, _, _, d6, _, _⟩ :=
      drain_spec { s with ds_finished_counter := s.ds_finished_counter + 1 }
    show Except.ok
        ((drain { s with ds_finished_counter := s.ds_finished_counter + 1 }).1.ds_finished_counter)
      = Except.ok (s.ds_finished_counter + 1)
    rw [d6]
  · rw [feedDoWork_done_neg src hlen]
    rfl

/-- C7 (counterexample): a draining Merge whose buffer still holds one queued
result — but in a non-PASSTHROUGH queue — satisfies the claimed precondition
(`is_full() or draining`, at least one queued result), yet `next()`'s
`pop(0)` on the empty PASSTHROUGH queue raises IndexError instead of
returning a merged record. -/
theorem merge_drain_oob_cex :
    mergedNext ⟨[("PASSTHROUGH", []), ("T", [⟨"T", "v"⟩])], true⟩
      = Except.error MergeErr.indexError ∧
    (⟨[("PASSTHROUGH", []), ("T", [⟨"T", "v"⟩])], true⟩ : MergeState).draining = true ∧
    ((⟨[("PASSTHROUGH", []), ("T", [⟨"T", "v"⟩])], true⟩ : MergeState).data_buffer.map
      (fun p => p.2.length)).sum = 1 :=
  ⟨rfl, rfl, rfl⟩

/-- C7 (amended): the pop is in bounds exactly when the PASSTHROUGH queue
itself is non-empty: whenever the guard (`is_full()` or `draining`) holds and
the PASSTHROUGH queue has a head (as `is_full()` guarantees), `next()`
returns a merged record. -/
theorem merge_next_inbounds (s : MergeState) (p : TransformResult)
    (tl : List TransformResult)
    (hq : dictGet s.data_buffer "PASSTHROUGH" = some (p :: tl))
    (hp : p.name = "PASSTHROUGH")
    (hg : (mergeIsFull s || s.draining) = true) :
    ∃ r s', mergedNext s = Except.ok (some (r, s')) := by
  refine ⟨(popOthers (dictSet s.data_buffer "PASSTHROUGH" tl)
      { base := p.value, fields := [] }).1,
    { s with data_buffer := (popOthers (dictSet s.data_buffer "PASSTHROUGH" tl)
      { base := p.value, fields := [] }).2 }, ?_⟩
  rw [mergedNext, hg]
  simp only [Bool.not_true, Bool.false_eq_true, if_false, hq]
  rw [if_pos hp]

/-- Witness for C7 (amended): with both queues non-empty (`is_full()`), the
Merge pops and returns a record. -/
theorem merge_next_inbounds_witness :
    ∃ r s', mergedNext ⟨[("PASSTHROUGH", [⟨"PASSTHROUGH", "x"⟩]), ("T", [⟨"T", "v"⟩])], false⟩
      = Except.ok (some (r, s')) :=
  merge_next_inbounds _ ⟨"PASSTHROUGH", "x"⟩ [] rfl rfl (by decide)

/-- C8: `drain()` terminates.  With `draining` set, each `send_next()`
removes exactly one buffered event while `pending_messages() > 0`, so the
loop reaches an empty buffer after exactly `pending_messages` iterations,
having sent every buffered event; and in `do_work`'s DONE branch (once the
counter reaches the source count) `signal_done()` is then reached. -/
theorem feed_drain_terminates (s : FeedState) :
    (drain s).1.draining = true ∧
    pending_messages (drain s).1 = 0 ∧
    (drain s).2.length = pending_messages s ∧
    (drain s).1.sent_count = s.sent_count + pending_messages s ∧
    (∀ t : FeedState, t.draining = true → 0 < pending_messages t →
      pending_messages (send_next t).1 + 1 = pending_messages t) ∧
    (∀ src : String, s.data_buffer.length = s.ds_finished_counter + 1 →
      (feedDoWork s (FeedMsg.done src)).map (fun r => r.1.doneSignaled)
        = Except.ok true) := by
  obtain ⟨d1, d2, d3, d4, _, _, _, _⟩ := drain_spec s
  refine ⟨d1, d2, d3, d4, ?_, ?_⟩
  · intro t hdr hpend
    obtain ⟨e, buf', hpop⟩ := popEarliest_isSome_of_pending t.data_buffer hpend
    rw [send_next_fst_of_some (by simp [hdr]) hpop]
    exact popEarliest_pending hpop
  · intro src hlen
    rw [feedDoWork_done_pos src hlen]
    rfl

/-- Witness for C8: a one-event buffer drains in one step and the DONE branch
signals completion. -/
theorem feed_drain_terminates_witness :
    pending_messages (drain (⟨0, 1, false, [("A", [⟨"A", 5, ""⟩])], 0, false⟩ : FeedState)).1 = 0 ∧
    (drain (⟨0, 1, false, [("A", [⟨"A", 5, ""⟩])], 0, false⟩ : FeedState)).2.length
      = pending_messages (⟨0, 1, false, [("A", [⟨"A", 5, ""⟩])], 0, false⟩ : FeedState) ∧
    pending_messages (send_next (⟨0, 1, true, [("A", [⟨"A", 5, ""⟩])], 0, false⟩ : FeedState)).1 + 1
      = pending_messages (⟨0, 1, true, [("A", [⟨"A", 5, ""⟩])], 0, false⟩ : FeedState) ∧
    (feedDoWork (⟨0, 1, false, [("A", [⟨"A", 5, ""⟩])], 0, false⟩ : FeedState)
        (FeedMsg.done "A")).map (fun r => r.1.doneSignaled) = Except.ok true :=
  ⟨(feed_drain_terminates _).2.1,
   (feed_drain_terminates _).2.2.1,
   (feed_drain_terminates ⟨0, 1, false, [("A", [⟨"A", 5, ""⟩])], 0, false⟩).2.2.2.2.1
     ⟨0, 1, true, [("A", [⟨"A", 5, ""⟩])], 0, false⟩ rfl (by decide),
   (feed_drain_terminates ⟨0, 1, false, [("A", [⟨"A", 5, ""⟩])], 0, false⟩).2.2.2.2.2 "A" rfl⟩

/-- C9: `is_timed_out()` returns true exactly when the component registry is
empty or some `sync_register` entry's `last_seen` lies more than `timeout`
before the current time; and `loop()` — literally `while not is_timed_out()`
— exits at the top of an iteration exactly when that condition holds,
otherwise running the body. -/
theorem is_timed_out_iff (cur : Int) (h : HostState) :
    (is_timed_out cur h = true ↔
      h.components = [] ∨ ∃ q ∈ h.sync_register, h.timeout < cur - q.2) ∧
    (∀ (doneTok : String) (p : Poll) (rest : List (Int × Poll)),
      is_timed_out cur h = true →
      loopRun doneTok ((cur, p) :: rest) h = Except.ok (h, [])) ∧
    (∀ (doneTok : String) (p : Poll) (rest : List (Int × Poll)),
      is_timed_out cur h = false →
      loopRun doneTok ((cur, p) :: rest) h
        = (match loopBody doneTok cur h p with
           | .error er => .error er
           | .ok r => seqAcks r (loopRun doneTok rest r.1))) := by
  refine ⟨?_, ?_, ?_⟩
  · rw [is_timed_out]
    by_cases hc : h.components.length = 0
    · rw [if_pos hc]
      constructor
      · intro _
        exact Or.inl (List.length_eq_zero.mp hc)
      · intro _
        rfl
    · rw [if_neg hc]
      constructor
      · intro hany
        obtain ⟨q, hq, hlt⟩ := List.any_eq_true.mp hany
        exact Or.inr ⟨q, hq, of_decide_eq_true hlt⟩
      · intro hor
        rcases hor with h' | ⟨q, hq, hlt⟩
        · exact absurd (by rw [h']; rfl) hc
        · exact List.any_eq_true.mpr ⟨q, hq, decide_eq_true hlt⟩
  · intro doneTok p rest ht
    rw [loopRun, if_pos ht]
  · intro doneTok p rest ht
    rw [loopRun, if_neg (by rw [ht]; exact Bool.false_ne_true)]

/-- Witness for C9: an empty registry is timed out, and the loop exits
immediately. -/
theorem is_timed_out_iff_witness :
    ((⟨[], [], 5⟩ : HostState).components = []
      ∨ ∃ q ∈ (⟨[], [], 5⟩ : HostState).sync_register,
          (⟨[], [], 5⟩ : HostState).timeout < 0 - q.2) ∧
    loopRun "DONE" [((0 : Int), Poll.empty)] ⟨[], [], 5⟩
      = Except.ok ((⟨[], [], 5⟩ : HostState), []) :=
  ⟨(is_timed_out_iff 0 ⟨[], [], 5⟩).1.mp rfl,
   (is_timed_out_iff 0 ⟨[], [], 5⟩).2.1 "DONE" Poll.empty [] rfl⟩

/-- C5 (counterexample): a malformed frame (no colon, so not two parts) is
skipped by the `continue` before the `ack` send: the host replies with
nothing, not exactly one `ack`. -/
theorem loop_ack_missing_cex :
    loopBody "DONE" 0 ⟨["FEED"], [("FEED", 0)], 5⟩ (Poll.msg "garbled frame")
      = Except.ok ((⟨["FEED"], [("FEED", 0)], 5⟩ : HostState), ([] : List String)) := rfl

/-- C5 (amended): the reply discipline the code actually implements: a
malformed frame gets no reply at all; a well-formed frame with a non-DONE
status gets exactly one `ack` (after refreshing `last_seen`); a well-formed
DONE for an id registered in both maps gets exactly one `ack` (after
unregistering). -/
theorem loop_ack_discipline (doneTok : String) (now : Int) (h : HostState) (m : String) :
    ((pySplitColon m).length ≠ 2 →
      loopBody doneTok now h (Poll.msg m) = Except.ok (h, [])) ∧
    (∀ i st, pySplitColon m = [i, st] → st ≠ doneTok →
      loopBody doneTok now h (Poll.msg m)
        = Except.ok ({ h with sync_register := dictSet h.sync_register i now }, ["ack"])) ∧
    (∀ i, pySplitColon m = [i, doneTok] → i ∈ h.components →
      (dictGet h.sync_register i).isSome = true →
      ∃ h', loopBody doneTok now h (Poll.msg m) = Except.ok (h', ["ack"])) := by
  refine ⟨?_, ?_, ?_⟩
  · intro hne
    rw [loopBody]
    rcases hsp : pySplitColon m with _ | ⟨a, _ | ⟨b, _ | ⟨c, tl⟩⟩⟩
    · rfl
    · rfl
    · exact absurd (by rw [hsp]; rfl) hne
    · rfl
  · intro i st hsp hne
    rw [loopBody, hsp, handleFrame, if_neg hne]
  · intro i hsp hmem hsync
    exact ⟨{ h with components := h.components.erase i, sync_register := h.sync_register.eraseP (fun p => p.1 == i) },
      by rw [loopBody, hsp, handleFrame, if_pos rfl, unregister_component, delKey,
        if_pos hmem, delEntry, if_pos hsync]⟩

/-- Witness for C5 (amended): concrete frames of each of the three kinds. -/
theorem loop_ack_discipline_witness :
    loopBody "DONE" 0 ⟨["FEED"], [("FEED", 0)], 5⟩ (Poll.msg "no colon here")
      = Except.ok ((⟨["FEED"], [("FEED", 0)], 5⟩ : HostState), []) ∧
    loopBody "DONE" 0 ⟨["FEED"], [("FEED", 0)], 5⟩ (Poll.msg "FEED:HEARTBEAT")
      = Except.ok ((⟨["FEED"], dictSet [("FEED", 0)] "FEED" 0, 5⟩ : HostState), ["ack"]) ∧
    ∃ h', loopBody "DONE" 0 ⟨["FEED"], [("FEED", 0)], 5⟩ (Poll.msg "FEED:DONE")
      = Except.ok (h', ["ack"]) :=
  ⟨(loop_ack_discipline "DONE" 0 ⟨["FEED"], [("FEED", 0)], 5⟩ "no colon here").1 (by decide),
   (loop_ack_discipline "DONE" 0 ⟨["FEED"], [("FEED", 0)], 5⟩ "FEED:HEARTBEAT").2.1
     "FEED" "HEARTBEAT" (by decide) (by decide),
   (loop_ack_discipline "DONE" 0 ⟨["FEED"], [("FEED", 0)], 5⟩ "FEED:DONE").2.2
     "FEED" (by decide) (by decide) (by decide)⟩

/-- C6 (counterexample): a well-formed `<id>:DONE` whose id is not registered
is not logged-and-ignored: `unregister_component`'s `del` raises `KeyError`,
the registries are not silently preserved by a continuing loop — the
exception propagates out of `loop()`. -/
theorem premature_done_cex :
    loopBody "DONE" 0 ⟨["FEED"], [("FEED", 0)], 5⟩ (Poll.msg "GHOST:DONE")
      = Except.error HostErr.keyError := rfl

/-- C6 (amended): a DONE frame for an id that is not a key of `components`
makes `loop()` raise `KeyError` from `unregister_component` (the first `del`
fails before any mutation and before the `ack` is sent); the loop does not
continue. -/
theorem premature_done_raises (doneTok : String) (now : Int) (h : HostState)
    (m i : String) (hsp : pySplitColon m = [i, doneTok]) (hi : i ∉ h.components) :
    loopBody doneTok now h (Poll.msg m) = Except.error HostErr.keyError := by
  rw [loopBody, hsp, handleFrame, if_pos rfl, unregister_component, delKey, if_neg hi]

/-- Witness for C6 (amended). -/
theorem premature_done_raises_witness :
    loopBody "DONE" 0 ⟨["FEED", "MERGE"], [("FEED", 0), ("MERGE", 0)], 5⟩
      (Poll.msg "X:DONE") = Except.error HostErr.keyError :=
  premature_done_raises "DONE" 0 ⟨["FEED", "MERGE"], [("FEED", 0), ("MERGE", 0)], 5⟩
    "X:DONE" "X" (by decide) (by decide)

/-- C10: the key sets of `components` and `sync_register` drift apart: a
well-formed frame with a non-DONE status for an id that is not in
`components` makes the assignment insert (or refresh) a `sync_register`
entry for that id, yielding a sync key with no component — and at any time
more than `timeout` later, `is_timed_out` fires on that never-registered
entry. -/
theorem sync_register_key_leak (doneTok : String) (now : Int) (h : HostState)
    (m i st : String) (hsp : pySplitColon m = [i, st]) (hst : st ≠ doneTok)
    (hi : i ∉ h.components) :
    loopBody doneTok now h (Poll.msg m)
      = Except.ok ({ h with sync_register := dictSet h.sync_register i now }, ["ack"]) ∧
    dictGet (dictSet h.sync_register i now) i = some now ∧
    i ∉ h.components ∧
    is_timed_out (now + h.timeout + 1)
      { h with sync_register := dictSet h.sync_register i now } = true := by
  refine ⟨?_, dictGet_dictSet_self _ _ _, hi, ?_⟩
  · rw [loopBody, hsp, handleFrame, if_neg hst]
  · rw [is_timed_out]
    by_cases hc : h.components.length = 0
    · rw [if_pos hc]
    · rw [if_neg hc]
      show (dictSet h.sync_register i now).any
        (fun p => h.timeout < (now + h.timeout + 1) - p.2) = true
      apply List.any_eq_true.mpr
      refine ⟨(i, now), dictSet_mem_self _ _ _, ?_⟩
      rw [decide_eq_true_eq]
      omega

/-- Witness for C10: a heartbeat from the unregistered id `X` leaves `X` in
`sync_register` but not in `components`, and six time units later the host
times out on it. -/
theorem sync_register_key_leak_witness :
    loopBody "DONE" 0 ⟨["FEED"], [("FEED", 0)], 5⟩ (Poll.msg "X:HEARTBEAT")
      = Except.ok ((⟨["FEED"], dictSet [("FEED", 0)] "X" 0, 5⟩ : HostState), ["ack"]) ∧
    dictGet (dictSet [("FEED", (0 : Int))] "X" 0) "X" = some 0 ∧
    "X" ∉ (["FEED"] : List String) ∧
    is_timed_out (0 + 5 + 1) (⟨["FEED"], dictSet [("FEED", 0)] "X" 0, 5⟩ : HostState) = true :=
  sync_register_key_leak "DONE" 0 ⟨["FEED"], [("FEED", 0)], 5⟩ "X:HEARTBEAT"
    "X" "HEARTBEAT" (by decide) (by decide) (by decide)

end Zipline
